import Mathlib

/-!
goradius: the RADIUS packet codec of `radiuspacket.go`.

A shallow embedding of the packet model, the attribute and packet codecs and the
User-Password cipher, followed by the properties established about them.

Conventions of the embedding

* a Go `byte`/`uint8` is `Fin 256`, a `uint16` is `Fin 65536`; a conversion
  `uint8(n)`/`uint16(n)` from an `int` is written with its explicit `% 2^w`;
* a Go `[]byte` and a Go `string` used as bytes (the shared secret) are `List Byte`;
* a `[16]byte` array is a list together with the proof that it holds 16 bytes;
* a run-time abort (an index or slice bound failure, `log.Fatal`) is `none`;
  a returned Go `error` is a value of `IOError`;
* `crypto/md5` is a parameter `md5 : List Byte → Block16`: nothing below depends
  on which function it is;
* the attribute dictionary (`attributes_to_code`, `code_to_attributes`), which
  lives in another file of the package, is a parameter of type `Dictionary`;
* the `Addr *net.UDPAddr` field of `RadiusPacket` is transport metadata which no
  function modelled here reads or writes; it is left out.
-/

set_option maxRecDepth 8000

namespace Goradius

/-! ## Data model -/

/-- A Go `uint8`. -/
abbrev Byte := Fin 256

/-- A Go `uint16`. -/
abbrev Word16 := Fin 65536

/-- The Go conversion `uint8(n)` of a non-negative `int`. -/
def uint8 (n : Nat) : Byte := ⟨n % 256, Nat.mod_lt _ (by decide)⟩

/-- The Go conversion `uint16(n)` of a non-negative `int`. -/
def uint16 (n : Nat) : Word16 := ⟨n % 65536, Nat.mod_lt _ (by decide)⟩

/-- A Go `[16]byte`. -/
abbrev Block16 := { l : List Byte // l.length = 16 }

/-- The zero value of `[16]byte`. -/
def Block16.zero : Block16 := ⟨List.replicate 16 0, by simp⟩

/-- The value of `var HEADER_SIZE = 20`. -/
def HEADER_SIZE : Nat := 20

/-- Modelled from the spec: the constant `authenticatorLength`, declared outside
`radiuspacket.go`; the header's authenticator is a 16-byte value. -/
def authenticatorLength : Nat := 16

/-- Modelled from the spec: the constant `headerEnd`, declared outside
`radiuspacket.go`; decoding treats everything from byte 20 onward as the
attribute region. -/
def headerEnd : Nat := 20

/-- Modelled from the spec: the constant `UserPassword`, declared outside
`radiuspacket.go`; the User-Password attribute of RFC 2865 section 5.2 has type 2. -/
def UserPassword : Byte := 2

/-- Modelled from the spec: the constant `VendorSpecific`, declared outside
`radiuspacket.go`; the reserved Vendor-Specific code is 26. -/
def VendorSpecific : Byte := 26

/-- The errors a Go call modelled here can return. -/
inductive IOError where
  /-- Go `io.EOF`. -/
  | EOF
  /-- Go `io.ErrUnexpectedEOF`. -/
  | ErrUnexpectedEOF
  /-- Go `errors.New("Attribute not found")`. -/
  | AttributeNotFound
  deriving DecidableEq, Repr

deriving instance DecidableEq for Except

/-- The two package-level maps `attributes_to_code` (`map[string]uint8`) and
`code_to_attributes` (`map[uint8]string`), declared outside `radiuspacket.go`. -/
structure Dictionary where
  attributes_to_code : String → Option Byte
  code_to_attributes : Byte → Option String

/-- The Go map index `code_to_attributes[c]`: the zero value `""` for a missing key. -/
def Dictionary.nameOf (d : Dictionary) (c : Byte) : String :=
  (d.code_to_attributes c).getD ""

/-- Go `type RadiusHeader struct`. -/
structure RadiusHeader where
  Code : Byte
  Identifier : Byte
  Length : Word16
  Authenticator : Block16
  deriving DecidableEq

/-- Go `type RadiusAttribute struct`; the field `Type` is written `Typ`, `Type`
being reserved. -/
structure RadiusAttribute where
  Typ : Byte
  Length : Byte
  Value : List Byte
  deriving DecidableEq

/-- Go `type RadiusPacket struct` (the embedded header and the attributes). -/
structure RadiusPacket where
  header : RadiusHeader
  Attributes : List RadiusAttribute
  deriving DecidableEq

/-- Go `type VendorSpecificAttribute struct`. -/
structure VendorSpecificAttribute where
  VendorId : Nat
  VendorType : Byte
  VendorLength : Byte
  deriving DecidableEq

/-- Go `NewRadiusPacket`: the zero value of `RadiusPacket`. -/
def NewRadiusPacket : RadiusPacket :=
  { header := { Code := 0, Identifier := 0, Length := 0, Authenticator := Block16.zero },
    Attributes := [] }

/-! ## Library calls -/

/-- Go `(*bytes.Buffer).Write` and `binary.Write` of bytes into a `bytes.Buffer`:
the bytes are appended and the returned error is always nil. -/
def bufWrite (buf data : List Byte) : Except IOError (List Byte) :=
  .ok (buf ++ data)

/-- Go `(*bytes.Buffer).Next(n)` on a buffer whose unread part is `rest`: the
next `n` bytes, or all of `rest` when fewer remain, and the new unread part.
A negative `n` makes the slice expression `buf[off : off+n]` fail. -/
def bufNext (rest : List Byte) (n : Int) : Option (List Byte × List Byte) :=
  if n < 0 then none
  else some (rest.take n.toNat, rest.drop n.toNat)

/-- Go `strings.Index(string(b), "\x00")`: the index of the first zero byte, -1
when there is none. -/
def indexZero : List Byte → Int
  | [] => -1
  | b :: rest =>
    if b = 0 then 0
    else
      let i := indexZero rest
      if i < 0 then -1 else i + 1

/-- The Go loop `for i, p := range data { buf[i] = f i p }` from index `i` on:
storing past the end of `buf` aborts. -/
def rangeStore (f : Nat → Byte → Byte) : List Byte → Nat → List Byte → Option (List Byte)
  | [], _, buf => some buf
  | p :: rest, i, buf =>
    if i < buf.length then rangeStore f rest (i + 1) (buf.set i (f i p)) else none

/-! ## Password cipher -/

/-- Go `paddAttr`. -/
def paddAttr (data : List Byte) (size : Nat) : Option (List Byte) :=
  rangeStore (fun _ b => b) data 0 (List.replicate size 0)

/-- The Go loop `for i := 0; i < 16; i++ { xored[i] = paddedPassword[i] ^ b[i] }`
on a 16-byte `paddedPassword` and the 16-byte digest `b`. -/
def xorBlock (padded b : List Byte) : List Byte :=
  (List.range 16).map (fun i => padded.getD i 0 ^^^ b.getD i 0)

/-- Go `encryptPassword`. -/
def encryptPassword (md5 : List Byte → Block16) (secret : List Byte)
    (authenticator : Block16) (password : List Byte) : Option Block16 :=
  match paddAttr password 16 with
  | none => none
  | some paddedPassword =>
    let b := md5 (secret ++ authenticator.val)
    some ⟨xorBlock paddedPassword b.val, by simp [xorBlock]⟩

/-- Go `decryptPassword`. -/
def decryptPassword (md5 : List Byte → Block16) (secret : List Byte)
    (value : List Byte) (requestAuthenticator : Block16) : Option (List Byte) :=
  let b := md5 (secret ++ requestAuthenticator.val)
  match rangeStore (fun i p => b.val.getD i 0 ^^^ p) value 0 (List.replicate 16 0) with
  | none => none
  | some bufr =>
    let idx := indexZero bufr
    if idx > 0 then some (bufr.take idx.toNat) else some bufr

/-! ## Packet model -/

/-- Go `RadiusAttribute.Bytes`; a failed write ends in `log.Fatal`. -/
def RadiusAttribute.Bytes (r : RadiusAttribute) : Option (List Byte) :=
  match bufWrite [] [r.Typ] with
  | .error _ => none
  | .ok buf =>
    let r := { r with Length := uint8 (r.Value.length + 2) }
    match bufWrite buf [r.Length] with
    | .error _ => none
    | .ok buf =>
      match bufWrite buf r.Value with
      | .error _ => none
      | .ok buf => some buf

/-- Go `(*RadiusPacket).AddAttribute`: the receiver after the call and the
returned error. -/
def RadiusPacket.AddAttribute (d : Dictionary) (p : RadiusPacket) (attrTypeStr : String)
    (value : List Byte) : RadiusPacket × Option IOError :=
  match d.attributes_to_code attrTypeStr with
  | some attrTypeCode =>
    let attr : RadiusAttribute := { Typ := attrTypeCode, Length := 0, Value := value }
    ({ p with Attributes := p.Attributes ++ [attr] }, none)
  | none => (p, some IOError.AttributeNotFound)

/-- Go `(*RadiusPacket).AddAttributeByType`: the receiver after the call. -/
def RadiusPacket.AddAttributeByType (p : RadiusPacket) (attrType : Byte)
    (value : List Byte) : RadiusPacket :=
  let attr : RadiusAttribute := { Typ := attrType, Length := 0, Value := value }
  { p with Attributes := p.Attributes ++ [attr] }

/-- Go `binary.Read(reader, binary.BigEndian, &vsa)` on a reader whose unread part
is `value`: the six-byte structure and the new unread part, or a failure when
fewer than six bytes are there. -/
def readVSA (value : List Byte) : Except IOError (VendorSpecificAttribute × List Byte) :=
  match value with
  | [] => .error IOError.EOF
  | b0 :: b1 :: b2 :: b3 :: vt :: vl :: reader =>
    .ok ({ VendorId := ((b0.val * 256 + b1.val) * 256 + b2.val) * 256 + b3.val,
           VendorType := vt, VendorLength := vl }, reader)
  | _ => .error IOError.ErrUnexpectedEOF

/-- The body of the `for _, v := range p.Attributes` loop of `GetAttribute`. -/
def getAttributeLoop (attrTypeCode : Byte) :
    List RadiusAttribute → List (List Byte) → Option (List (List Byte))
  | [], attrs => some attrs
  | v :: rest, attrs =>
    if v.Typ = attrTypeCode then
      if v.Typ = VendorSpecific then
        match readVSA v.Value with
        | .error _ => none
        | .ok (vsa, reader) =>
          match bufNext reader (vsa.VendorLength.val : Int) with
          | none => none
          | some (value, _) => getAttributeLoop attrTypeCode rest (attrs ++ [value])
      else getAttributeLoop attrTypeCode rest (attrs ++ [v.Value])
    else getAttributeLoop attrTypeCode rest attrs

/-- Go `(*RadiusPacket).GetAttribute`; `none` is the `log.Fatal` exit. -/
def RadiusPacket.GetAttribute (d : Dictionary) (p : RadiusPacket) (attrType : String) :
    Option (List (List Byte)) :=
  match d.attributes_to_code attrType with
  | some attrTypeCode => getAttributeLoop attrTypeCode p.Attributes []
  | none => some []

/-! ## Encoding -/

/-- The body of the `for _, attr := range r.Attributes` loop of `encodeAttrs`,
`buf` being what has been written so far. -/
def encodeAttrsLoop (md5 : List Byte → Block16) (secret : List Byte) (authenticator : Block16) :
    List RadiusAttribute → List Byte → Option (List Byte)
  | [], buf => some buf
  | attr :: rest, buf =>
    let attr? : Option RadiusAttribute :=
      if attr.Typ = UserPassword then
        match encryptPassword md5 secret authenticator attr.Value with
        | none => none
        | some password_data =>
          some { attr with Length := uint8 password_data.val.length, Value := password_data.val }
      else some { attr with Length := uint8 attr.Value.length }
    match attr? with
    | none => none
    | some attr =>
      match attr.Bytes with
      | none => none
      | some bs =>
        match bufWrite buf bs with
        | .error _ => none
        | .ok buf => encodeAttrsLoop md5 secret authenticator rest buf

/-- Go `(*RadiusPacket).encodeAttrs`. -/
def RadiusPacket.encodeAttrs (md5 : List Byte → Block16) (r : RadiusPacket)
    (secret : List Byte) : Option (List Byte) :=
  encodeAttrsLoop md5 secret r.header.Authenticator r.Attributes []

/-- What `binary.Write(buf, binary.BigEndian, &r.RadiusHeader)` writes: the four
fields in order, the 16-bit length most significant byte first. -/
def RadiusHeader.wire (h : RadiusHeader) : List Byte :=
  [h.Code, h.Identifier, uint8 (h.Length.val / 256), uint8 h.Length.val] ++ h.Authenticator.val

/-- What a call of `EncodePacket` leaves behind: the returned bytes, the returned
error and the receiver after the call. -/
structure Encoded where
  data : List Byte
  err : Option IOError
  packet : RadiusPacket
  deriving DecidableEq

/-- Go `(*RadiusPacket).EncodePacket`; `none` is a run-time abort. -/
def RadiusPacket.EncodePacket (md5 : List Byte → Block16) (r : RadiusPacket)
    (secret : List Byte) : Option Encoded :=
  match r.encodeAttrs md5 secret with
  | none => none
  | some attrs_data =>
    let attrs_size := attrs_data.length
    let r := { r with header := { r.header with Length := uint16 (attrs_size + HEADER_SIZE) } }
    match bufWrite [] r.header.wire with
    | .error e => some { data := [], err := some e, packet := r }
    | .ok buf =>
      match bufWrite buf attrs_data with
      | .error e => some { data := buf, err := some e, packet := r }
      | .ok buf => some { data := buf, err := none, packet := r }

/-! ## Decoding -/

/-- Go `binary.Read(reader, binary.BigEndian, &packet.RadiusHeader)` on a reader
over `rawMsg`: the 20 header bytes are needed; `io.EOF` when there is no byte at
all, `io.ErrUnexpectedEOF` when there are some but fewer than 20. -/
def readHeader (rawMsg : List Byte) : Except IOError RadiusHeader :=
  match rawMsg with
  | [] => .error IOError.EOF
  | code :: identifier :: l1 :: l0 :: rest =>
    if h : (rest.take 16).length = 16 then
      .ok { Code := code, Identifier := identifier,
            Length := uint16 (l1.val * 256 + l0.val),
            Authenticator := ⟨rest.take 16, h⟩ }
    else .error IOError.ErrUnexpectedEOF
  | _ => .error IOError.ErrUnexpectedEOF

/-- The `for` loop of `parseAttributes`: `reader` is the unread part of the
buffer, `attrs` the attributes collected so far. Every pass that does not leave
the loop reads at least two bytes, so `fuel` passes are enough as soon as `fuel`
exceeds the number of unread bytes (`parseAttributesLoop_fuel`). -/
def parseAttributesLoop (md5 : List Byte → Block16) (requestAuthenticator : Block16)
    (secret : List Byte) : Nat → List Byte → List RadiusAttribute → Option (List RadiusAttribute)
  | 0, _, attrs => some attrs
  | fuel + 1, reader, attrs =>
    match reader with
    | [] => some attrs
    | [_] => some attrs
    | attr_type :: length :: reader =>
      if attr_type = 0 then
        parseAttributesLoop md5 requestAuthenticator secret fuel reader attrs
      else if attr_type = UserPassword then
        match bufNext reader ((length.val : Int) - 2) with
        | none => none
        | some (value, reader) =>
          match decryptPassword md5 secret value requestAuthenticator with
          | none => none
          | some value =>
            parseAttributesLoop md5 requestAuthenticator secret fuel reader
              (attrs ++ [{ Typ := attr_type, Length := length, Value := value }])
      else
        match bufNext reader ((length.val : Int) - 2) with
        | none => none
        | some (value, reader) =>
          parseAttributesLoop md5 requestAuthenticator secret fuel reader
            (attrs ++ [{ Typ := attr_type, Length := length, Value := value }])

/-- Go `parseAttributes`; `none` is a run-time abort. -/
def parseAttributes (md5 : List Byte → Block16) (data : List Byte)
    (requestAuthenticator : Block16) (secret : List Byte) : Option (List RadiusAttribute) :=
  parseAttributesLoop md5 requestAuthenticator secret (data.length + 1) data []

/-- Go `ParseRADIUSPacket`: `none` is a run-time abort, `.error e` the return
`(nil, e)` and `.ok p` the return `(p, nil)`. -/
def ParseRADIUSPacket (d : Dictionary) (md5 : List Byte → Block16) (rawMsg : List Byte)
    (secret : List Byte) : Option (Except IOError RadiusPacket) :=
  match readHeader rawMsg with
  | .error e => some (.error e)
  | .ok h =>
    let packet := { NewRadiusPacket with header := h }
    if headerEnd ≤ rawMsg.length then
      let rawAttributesBytes := rawMsg.drop headerEnd
      match parseAttributes md5 rawAttributesBytes packet.header.Authenticator secret with
      | none => none
      | some rawAttributes =>
        some (.ok (rawAttributes.foldl
          (fun packet attr => (packet.AddAttribute d (d.nameOf attr.Typ) attr.Value).1) packet))
    else none

/-! ## Auxiliary definitions used in the statements -/

/-- The last three statements of `decryptPassword` on its buffer `bufr`: the part
before the first zero byte when that byte is at an index above 0, all of `bufr`
otherwise. -/
def cutAtZero (bufr : List Byte) : List Byte :=
  if indexZero bufr > 0 then bufr.take (indexZero bufr).toNat else bufr

/-- The value `encodeAttrs` emits for an attribute: the `encryptPassword` block for a
User-Password attribute, the attribute's own value otherwise; `none` when
`encryptPassword` aborts. -/
def emittedValue (md5 : List Byte → Block16) (secret : List Byte) (authenticator : Block16)
    (a : RadiusAttribute) : Option (List Byte) :=
  if a.Typ = UserPassword then
    (encryptPassword md5 secret authenticator a.Value).map Subtype.val
  else some a.Value

/-- The bytes of one attribute on the wire, given the value that is emitted for it. -/
def wireOf (a : RadiusAttribute) (v : List Byte) : List Byte :=
  a.Typ :: uint8 (v.length + 2) :: v

/-- The wire attribute `encodeAttrs` writes for `a` when it emits the value `v`. -/
def emittedAttr (a : RadiusAttribute) (v : List Byte) : RadiusAttribute :=
  { Typ := a.Typ, Length := uint8 (v.length + 2), Value := v }

/-- The wire bytes of an attribute as they stand: type, length byte, value. -/
def RadiusAttribute.raw (a : RadiusAttribute) : List Byte := a.Typ :: a.Length :: a.Value

/-- The attribute `parseAttributes` builds from a complete wire attribute `a`:
`a'` has the type and length byte of `a`, and the value of `a`, passed through
`decryptPassword` for a User-Password attribute. -/
def ParsedFrom (md5 : List Byte → Block16) (secret : List Byte) (auth : Block16)
    (a a' : RadiusAttribute) : Prop :=
  a'.Typ = a.Typ ∧ a'.Length = a.Length ∧
    if a.Typ = UserPassword then decryptPassword md5 secret a.Value auth = some a'.Value
    else a'.Value = a.Value

/-- The value `ParseRADIUSPacket` reproduces for an attribute of a packet encoded by
`EncodePacket`: for User-Password the zero-padded 16 bytes cut by `cutAtZero`, the
value itself otherwise. -/
def reproducedValue (a : RadiusAttribute) : List Byte :=
  if a.Typ = UserPassword then cutAtZero (a.Value ++ List.replicate (16 - a.Value.length) 0)
  else a.Value

/-- What `ParseRADIUSPacket` does with one parsed attribute: the attribute it adds, under
the code that `attributes_to_code` gives for the name `code_to_attributes[Type]`, or
nothing when that name is not a key. -/
def resolved (d : Dictionary) (a : RadiusAttribute) : Option RadiusAttribute :=
  (d.attributes_to_code (d.nameOf a.Typ)).map
    (fun code => { Typ := code, Length := 0, Value := a.Value })

/-! ## Sample data -/

/-- A three-entry dictionary: User-Name (1), User-Password (2), Vendor-Specific (26). -/
def sampleDict : Dictionary where
  attributes_to_code := fun s =>
    if s = "User-Name" then some 1
    else if s = "User-Password" then some 2
    else if s = "Vendor-Specific" then some 26
    else none
  code_to_attributes := fun c =>
    if c = 1 then some "User-Name"
    else if c = 2 then some "User-Password"
    else if c = 26 then some "Vendor-Specific"
    else none

/-- A stand-in for MD5 on sample inputs: sixteen bytes derived from the sum and
the number of the input bytes. -/
def sampleMd5 (input : List Byte) : Block16 :=
  ⟨(List.range 16).map
      (fun i => uint8 ((input.map Fin.val).sum * (i + 3) + 7 * i + input.length + 90)),
    by simp⟩

/-- The bytes of the ASCII string `s`. -/
def asciiBytes (s : String) : List Byte := s.toList.map (fun c => uint8 c.toNat)

/-- A request with a User-Name, a User-Password and an attribute of type 9. -/
def samplePacket : RadiusPacket :=
  { header := { Code := 1, Identifier := 7, Length := 0, Authenticator := Block16.zero },
    Attributes := [{ Typ := 1, Length := 0, Value := asciiBytes "bob" },
                   { Typ := 2, Length := 0, Value := asciiBytes "abc" },
                   { Typ := 9, Length := 0, Value := [1] }] }

/-- What `EncodePacket` leaves behind on `samplePacket` with the secret `[1, 2, 3]`
and `sampleMd5`. -/
def sampleEncoded : Encoded :=
  { data := [1, 7, 0, 46, 0, 0, 0, 0, 0, 0, 0, 0, 0, 0, 0, 0, 0, 0, 0, 0,
             1, 5, 98, 111, 98,
             2, 18, 30, 238, 250, 166, 179, 192, 205, 218, 231, 244, 1, 14, 27, 40, 53, 66,
             9, 3, 1],
    err := none,
    packet := { samplePacket with header := { samplePacket.header with Length := 46 } } }

/-- A request with a User-Name and a User-Password, both known to `sampleDict`. -/
def loginPacket : RadiusPacket :=
  { header := { Code := 1, Identifier := 7, Length := 0, Authenticator := Block16.zero },
    Attributes := [{ Typ := 1, Length := 0, Value := asciiBytes "bob" },
                   { Typ := 2, Length := 0, Value := asciiBytes "abc" }] }

/-- A request with a User-Name, a User-Password that starts with a zero byte (0, 97) and
a User-Password with trailing zero bytes (97, 98, 0, 0). -/
def leadingZeroPacket : RadiusPacket :=
  { header := { Code := 1, Identifier := 7, Length := 0, Authenticator := Block16.zero },
    Attributes := [{ Typ := 1, Length := 0, Value := asciiBytes "bob" },
                   { Typ := 2, Length := 0, Value := [0, 97] },
                   { Typ := 2, Length := 0, Value := [97, 98, 0, 0] }] }

/-- A packet of 258 attributes of type 1, each with a 253-byte value. -/
def bigPacket : RadiusPacket :=
  { header := { Code := 1, Identifier := 0, Length := 0, Authenticator := Block16.zero },
    Attributes := List.replicate 258 { Typ := 1, Length := 0, Value := List.replicate 253 0 } }

/-- A packet whose only attribute has a 254-byte value. -/
def oversizedPacket : RadiusPacket :=
  { header := { Code := 1, Identifier := 0, Length := 0, Authenticator := Block16.zero },
    Attributes := [{ Typ := 1, Length := 0, Value := List.replicate 254 0 }] }

/-- Twenty header bytes (Code 1, Identifier 7, declared Length 25, zero Authenticator)
followed by an attribute header of type 1 declaring length 10 and only 3 more bytes. -/
def truncatedMsg : List Byte :=
  [1, 7, 0, 25, 0, 0, 0, 0, 0, 0, 0, 0, 0, 0, 0, 0, 0, 0, 0, 0, 1, 10, 1, 2, 3]

/-- A packet holding a User-Name and one Vendor-Specific attribute that wraps
vendorId 9, vendorType 1 and the payload "ciscoval". -/
def vendorPacket : RadiusPacket :=
  { header := { Code := 1, Identifier := 7, Length := 0, Authenticator := Block16.zero },
    Attributes := [{ Typ := 1, Length := 0, Value := asciiBytes "bob" }] ++
      [{ Typ := VendorSpecific, Length := 0,
         Value := 0 :: 0 :: 0 :: 9 :: 1 :: 10 :: asciiBytes "ciscoval" }] ++ [] }

/-- Twenty header bytes followed by an attribute header of type 1 whose length byte is 1. -/
def shortLengthMsg : List Byte :=
  [1, 7, 0, 22, 0, 0, 0, 0, 0, 0, 0, 0, 0, 0, 0, 0, 0, 0, 0, 0, 1, 1]

/-- Twenty header bytes followed by an attribute header of type 1 whose length byte is 0. -/
def zeroLengthMsg : List Byte :=
  [1, 7, 0, 22, 0, 0, 0, 0, 0, 0, 0, 0, 0, 0, 0, 0, 0, 0, 0, 0, 1, 0]

/-- Twenty header bytes followed by a User-Password attribute that declares length 19
and carries 17 value bytes. -/
def longPasswordMsg : List Byte :=
  [1, 7, 0, 39, 0, 0, 0, 0, 0, 0, 0, 0, 0, 0, 0, 0, 0, 0, 0, 0,
   2, 19, 1, 2, 3, 4, 5, 6, 7, 8, 9, 10, 11, 12, 13, 14, 15, 16, 17]

/-- Twenty header bytes, a complete User-Name attribute "bob", then a complete
attribute of type 9, which `sampleDict` does not know, with the value byte 5. -/
def unknownCodeMsg : List Byte :=
  1 :: 7 :: 0 :: 28 :: (Block16.zero.val ++ [1, 5, 98, 111, 98, 9, 3, 5])

/-- A packet with two User-Name attributes around an attribute of type 9. -/
def repeatedPacket : RadiusPacket :=
  { header := { Code := 1, Identifier := 7, Length := 0, Authenticator := Block16.zero },
    Attributes := [{ Typ := 1, Length := 0, Value := [98] },
                   { Typ := 9, Length := 0, Value := [1] },
                   { Typ := 1, Length := 0, Value := [97] }] }

/-- A copy of `samplePacket` with other stored lengths: header Length 999, attribute
Lengths 9, 200 and 1. -/
def staleLengthPacket : RadiusPacket :=
  { header := { Code := 1, Identifier := 7, Length := 999, Authenticator := Block16.zero },
    Attributes := [{ Typ := 1, Length := 9, Value := asciiBytes "bob" },
                   { Typ := 2, Length := 200, Value := asciiBytes "abc" },
                   { Typ := 9, Length := 1, Value := [1] }] }

/-! ## Library and cipher lemmas -/

theorem Byte.xor_xor_cancel (a k : Byte) : k ^^^ (a ^^^ k) = a := by
  apply Fin.ext
  have ha : a.val < 2 ^ 8 := a.isLt
  have hk : k.val < 2 ^ 8 := k.isLt
  have h1 : a.val ^^^ k.val < 2 ^ 8 := Nat.xor_lt_two_pow ha hk
  show (k.val ^^^ ((a.val ^^^ k.val) % 256)) % 256 = a.val
  have e : (a.val ^^^ k.val) % 256 = a.val ^^^ k.val := Nat.mod_eq_of_lt h1
  rw [e, Nat.xor_comm a.val, ← Nat.xor_assoc, Nat.xor_self, Nat.zero_xor]
  exact Nat.mod_eq_of_lt ha

theorem set_take_succ (buf : List Byte) (i : Nat) (v : Byte) (hi : i < buf.length) :
    (buf.set i v).take (i + 1) = buf.take i ++ [v] := by
  rw [List.set_eq_take_cons_drop v hi]
  have hl : (List.take i buf).length = i := by simp; omega
  rw [List.take_append_eq_append_take, hl]
  simp

theorem rangeStore_eq (f : Nat → Byte → Byte) (data : List Byte) :
    ∀ (i : Nat) (buf : List Byte), i + data.length ≤ buf.length →
      rangeStore f data i buf =
        some (buf.take i ++ List.zipWith f (List.range' i data.length) data
              ++ buf.drop (i + data.length)) := by
  induction data with
  | nil => intro i buf _; simp [rangeStore]
  | cons p rest ih =>
    intro i buf h
    simp only [List.length_cons] at h
    have hi : i < buf.length := by omega
    rw [rangeStore, if_pos hi, ih (i + 1) _ (by simp; omega)]
    simp only [List.length_cons, List.range'_succ, List.zipWith_cons_cons]
    congr 1
    rw [set_take_succ buf i _ hi, List.drop_set_of_lt _ _ (by omega)]
    have e : i + 1 + rest.length = i + (rest.length + 1) := by omega
    rw [e]
    simp

theorem rangeStore_none (f : Nat → Byte → Byte) (data : List Byte) :
    ∀ (i : Nat) (buf : List Byte), buf.length < i + data.length → data ≠ [] →
      rangeStore f data i buf = none := by
  induction data with
  | nil => intro i buf _ h; exact absurd rfl h
  | cons p rest ih =>
    intro i buf h _
    rw [rangeStore]
    split
    · rename_i hi
      cases rest with
      | nil => simp at h; omega
      | cons q rest2 =>
        apply ih
        · simp at h ⊢; omega
        · simp
    · rfl

theorem zipWith_range_snd (data : List Byte) (i : Nat) :
    List.zipWith (fun (_ : Nat) (b : Byte) => b) (List.range' i data.length) data = data := by
  induction data generalizing i with
  | nil => simp
  | cons p rest ih => simp [List.range'_succ, ih]

theorem paddAttr_eq (data : List Byte) (size : Nat) (h : data.length ≤ size) :
    paddAttr data size = some (data ++ List.replicate (size - data.length) 0) := by
  unfold paddAttr
  rw [rangeStore_eq _ _ _ _ (by simpa using h)]
  simp [zipWith_range_snd]

theorem paddAttr_none (data : List Byte) (size : Nat) (h : size < data.length) :
    paddAttr data size = none := by
  unfold paddAttr
  apply rangeStore_none
  · simpa using h
  · intro e; simp [e] at h

theorem decryptPassword_eq (md5 : List Byte → Block16) (secret value : List Byte)
    (auth : Block16) (h : value.length ≤ 16) :
    decryptPassword md5 secret value auth =
      some (cutAtZero (List.zipWith (fun i p => (md5 (secret ++ auth.val)).val.getD i 0 ^^^ p)
              (List.range' 0 value.length) value ++ List.replicate (16 - value.length) 0)) := by
  unfold decryptPassword
  simp only []
  rw [rangeStore_eq _ _ _ _ (by simpa using h)]
  simp only [List.take_zero, List.nil_append, Nat.zero_add, List.drop_replicate, cutAtZero]
  split <;> rfl

theorem decryptPassword_none (md5 : List Byte → Block16) (secret value : List Byte)
    (auth : Block16) (h : 16 < value.length) :
    decryptPassword md5 secret value auth = none := by
  unfold decryptPassword
  simp only []
  rw [rangeStore_none _ _ _ _ (by simpa using h) (by intro e; simp [e] at h)]

theorem unxor_xorBlock (b padded : List Byte) (hp : padded.length = 16) :
    List.zipWith (fun i p => b.getD i 0 ^^^ p) (List.range' 0 16) (xorBlock padded b) = padded := by
  apply List.ext_getElem
  · simp [xorBlock, hp]
  · intro n h1 h2
    simp [xorBlock, Byte.xor_xor_cancel, List.getElem?_eq_getElem h2]

theorem encryptPassword_eq (md5 : List Byte → Block16) (secret password : List Byte)
    (auth : Block16) (h : password.length ≤ 16) :
    (encryptPassword md5 secret auth password).map Subtype.val =
      some (xorBlock (password ++ List.replicate (16 - password.length) 0)
              (md5 (secret ++ auth.val)).val) := by
  unfold encryptPassword
  rw [paddAttr_eq _ _ h]
  rfl

theorem encryptPassword_none (md5 : List Byte → Block16) (secret password : List Byte)
    (auth : Block16) (h : 16 < password.length) :
    encryptPassword md5 secret auth password = none := by
  unfold encryptPassword
  rw [paddAttr_none _ _ h]

theorem decrypt_xorBlock (md5 : List Byte → Block16) (secret padded : List Byte)
    (auth : Block16) (hp : padded.length = 16) :
    decryptPassword md5 secret (xorBlock padded (md5 (secret ++ auth.val)).val) auth =
      some (cutAtZero padded) := by
  have hl : (xorBlock padded (md5 (secret ++ auth.val)).val).length = 16 := by simp [xorBlock]
  rw [decryptPassword_eq _ _ _ _ (by omega), hl,
    unxor_xorBlock _ _ hp]
  simp

theorem indexZero_ge (l : List Byte) : -1 ≤ indexZero l := by
  induction l with
  | nil => simp [indexZero]
  | cons b rest ih =>
    simp only [indexZero]
    split
    · omega
    · split <;> omega

theorem indexZero_of_no_zero (l : List Byte) (h : ∀ x ∈ l, x ≠ 0) : indexZero l = -1 := by
  induction l with
  | nil => simp [indexZero]
  | cons b rest ih =>
    have hb : b ≠ 0 := h b (by simp)
    have hr := ih (fun x hx => h x (by simp [hx]))
    simp [indexZero, hb, hr]

theorem indexZero_append_zero (l rest : List Byte) (h : ∀ x ∈ l, x ≠ 0) :
    indexZero (l ++ 0 :: rest) = l.length := by
  induction l with
  | nil => simp [indexZero]
  | cons b tl ih =>
    have hb : b ≠ 0 := h b (by simp)
    have hr := ih (fun x hx => h x (by simp [hx]))
    show (if b = 0 then (0 : Int) else
      if indexZero (tl ++ 0 :: rest) < 0 then -1 else indexZero (tl ++ 0 :: rest) + 1) = _
    rw [if_neg hb, hr, if_neg (by omega)]
    simp

theorem cutAtZero_padded (password : List Byte) (h0 : 0 < password.length)
    (h16 : password.length ≤ 16) (hz : ∀ x ∈ password, x ≠ 0) :
    cutAtZero (password ++ List.replicate (16 - password.length) 0) = password := by
  unfold cutAtZero
  rcases Nat.lt_or_ge password.length 16 with hlt | hge
  · obtain ⟨k, hk⟩ : ∃ k, 16 - password.length = k + 1 := ⟨15 - password.length, by omega⟩
    rw [hk, List.replicate_succ, indexZero_append_zero _ _ hz]
    have : ((password.length : Int) > 0) := by exact_mod_cast h0
    simp [this]
  · have e : 16 - password.length = 0 := by omega
    rw [e]
    simp only [List.replicate_zero, List.append_nil]
    rw [indexZero_of_no_zero _ hz]
    simp

/-- C2. Password cipher round trip: for every secret, every 16-byte authenticator and
every password of 1 to 16 bytes without a zero byte, whatever 16-byte digest function
stands for MD5, `encryptPassword` returns a block and `decryptPassword` applied to that
block returns exactly the password. -/
theorem password_round_trip (md5 : List Byte → Block16) (secret : List Byte)
    (authenticator : Block16) (password : List Byte)
    (hlo : 1 ≤ password.length) (hhi : password.length ≤ 16)
    (hnz : ∀ x ∈ password, x ≠ 0) :
    ∃ cipher, encryptPassword md5 secret authenticator password = some cipher ∧
      decryptPassword md5 secret cipher.val authenticator = some password := by
  have he := encryptPassword_eq md5 secret password authenticator hhi
  cases hc : encryptPassword md5 secret authenticator password with
  | none => rw [hc] at he; simp at he
  | some cipher =>
    rw [hc] at he
    simp only [Option.map_some', Option.some.injEq] at he
    refine ⟨cipher, rfl, ?_⟩
    rw [he, decrypt_xorBlock _ _ _ _ (by simp; omega), cutAtZero_padded _ hlo hhi hnz]

theorem password_round_trip_witness :
    ∃ cipher, encryptPassword sampleMd5 (asciiBytes "testing123") Block16.zero
        (asciiBytes "password") = some cipher ∧
      decryptPassword sampleMd5 (asciiBytes "testing123") cipher.val Block16.zero
        = some (asciiBytes "password") :=
  password_round_trip sampleMd5 (asciiBytes "testing123") Block16.zero (asciiBytes "password")
    (by decide) (by decide) (by decide)

/-! ## Encoding lemmas -/

theorem Bytes_eq (a : RadiusAttribute) :
    a.Bytes = some (a.Typ :: uint8 (a.Value.length + 2) :: a.Value) := by
  simp [RadiusAttribute.Bytes, bufWrite]

theorem encodeAttrsLoop_cons (md5 : List Byte → Block16) (secret : List Byte) (auth : Block16)
    (a : RadiusAttribute) (rest : List RadiusAttribute) (buf : List Byte) :
    encodeAttrsLoop md5 secret auth (a :: rest) buf =
      (emittedValue md5 secret auth a).bind
        (fun v => encodeAttrsLoop md5 secret auth rest (buf ++ wireOf a v)) := by
  unfold emittedValue
  rw [encodeAttrsLoop]
  by_cases hp : a.Typ = UserPassword
  · simp only [hp, if_true]
    cases encryptPassword md5 secret auth a.Value with
    | none => simp
    | some c => simp [Bytes_eq, bufWrite, wireOf, hp]
  · simp [hp, Bytes_eq, bufWrite, wireOf]

theorem encodeAttrsLoop_eq (md5 : List Byte → Block16) (secret : List Byte) (auth : Block16)
    (attrs : List RadiusAttribute) (vs : List (List Byte))
    (h : List.Forall₂ (fun a v => emittedValue md5 secret auth a = some v) attrs vs) :
    ∀ buf, encodeAttrsLoop md5 secret auth attrs buf =
      some (buf ++ (List.zipWith wireOf attrs vs).flatten) := by
  induction h with
  | nil => intro buf; simp [encodeAttrsLoop]
  | cons hav _ ih =>
    intro buf
    rw [encodeAttrsLoop_cons, hav]
    simp [ih]

theorem emittedValue_exists (md5 : List Byte → Block16) (secret : List Byte) (auth : Block16)
    (attrs : List RadiusAttribute)
    (h : ∀ a ∈ attrs, a.Typ = UserPassword → a.Value.length ≤ 16) :
    ∃ vs, List.Forall₂ (fun a v => emittedValue md5 secret auth a = some v) attrs vs := by
  induction attrs with
  | nil => exact ⟨[], List.Forall₂.nil⟩
  | cons a rest ih =>
    obtain ⟨vs, hvs⟩ := ih (fun x hx => h x (by simp [hx]))
    by_cases hp : a.Typ = UserPassword
    · have he := encryptPassword_eq md5 secret a.Value auth (h a (by simp) hp)
      exact ⟨_ :: vs, List.Forall₂.cons (by simp only [emittedValue, hp, if_true]; exact he) hvs⟩
    · exact ⟨a.Value :: vs, List.Forall₂.cons (by simp [emittedValue, hp]) hvs⟩

theorem emittedValue_length (md5 : List Byte → Block16) (secret : List Byte) (auth : Block16)
    (a : RadiusAttribute) (v : List Byte) (h : emittedValue md5 secret auth a = some v) :
    v.length = if a.Typ = UserPassword then 16 else a.Value.length := by
  unfold emittedValue at h
  by_cases hp : a.Typ = UserPassword
  · rw [if_pos hp] at h
    rw [if_pos hp]
    cases hc : encryptPassword md5 secret auth a.Value with
    | none => simp [hc] at h
    | some c =>
      simp [hc] at h
      rw [← h]; exact c.property
  · rw [if_neg hp] at h
    rw [if_neg hp]
    simp at h; rw [h]

theorem encodeAttrsLoop_some (md5 : List Byte → Block16) (secret : List Byte) (auth : Block16)
    (attrs : List RadiusAttribute) :
    ∀ buf out, encodeAttrsLoop md5 secret auth attrs buf = some out →
      ∃ vs, List.Forall₂ (fun a v => emittedValue md5 secret auth a = some v) attrs vs := by
  induction attrs with
  | nil => intro _ _ _; exact ⟨[], List.Forall₂.nil⟩
  | cons a rest ih =>
    intro buf out h
    rw [encodeAttrsLoop_cons] at h
    cases hv : emittedValue md5 secret auth a with
    | none => simp [hv] at h
    | some v =>
      simp [hv] at h
      obtain ⟨vs, hvs⟩ := ih _ _ h
      exact ⟨v :: vs, List.Forall₂.cons hv hvs⟩

theorem wire_length_sum (md5 : List Byte → Block16) (secret : List Byte) (auth : Block16)
    (attrs : List RadiusAttribute) (vs : List (List Byte))
    (h : List.Forall₂ (fun a v => emittedValue md5 secret auth a = some v) attrs vs) :
    (List.zipWith wireOf attrs vs).flatten.length =
      (attrs.map (fun a => (if a.Typ = UserPassword then 16 else a.Value.length) + 2)).sum := by
  induction h with
  | nil => simp
  | cons hav _ ih =>
    simp only [List.zipWith_cons_cons, List.flatten_cons, List.length_append, ih, List.map_cons,
      List.sum_cons]
    rw [wireOf, List.length_cons, List.length_cons, emittedValue_length _ _ _ _ _ hav]

theorem EncodePacket_eq (md5 : List Byte → Block16) (p : RadiusPacket) (secret : List Byte)
    (attrs_data : List Byte) (h : p.encodeAttrs md5 secret = some attrs_data) :
    p.EncodePacket md5 secret =
      some { data := [p.header.Code, p.header.Identifier,
                      uint8 ((uint16 (attrs_data.length + 20)).val / 256),
                      uint8 (uint16 (attrs_data.length + 20)).val]
                     ++ p.header.Authenticator.val ++ attrs_data,
             err := none,
             packet := { p with header :=
               { p.header with Length := uint16 (attrs_data.length + 20) } } } := by
  simp [RadiusPacket.EncodePacket, h, bufWrite, RadiusHeader.wire, HEADER_SIZE]

theorem EncodePacket_some (md5 : List Byte → Block16) (p : RadiusPacket) (secret : List Byte)
    (enc : Encoded) (h : p.EncodePacket md5 secret = some enc) :
    ∃ attrs_data, p.encodeAttrs md5 secret = some attrs_data := by
  cases ha : p.encodeAttrs md5 secret with
  | none => simp [RadiusPacket.EncodePacket, ha] at h
  | some attrs_data => exact ⟨attrs_data, rfl⟩

theorem be16_value (n : Nat) :
    (uint8 ((uint16 n).val / 256)).val * 256 + (uint8 (uint16 n).val).val = n % 65536 := by
  simp only [uint8, uint16]
  omega

theorem bigPacket_encodeAttrs (md5 : List Byte → Block16) (secret : List Byte) :
    ∃ attrs_data, bigPacket.encodeAttrs md5 secret = some attrs_data ∧
      attrs_data.length = 65790 := by
  obtain ⟨vs, hvs⟩ := emittedValue_exists md5 secret bigPacket.header.Authenticator
    bigPacket.Attributes (by
      intro a ha hp
      simp only [bigPacket, List.mem_replicate] at ha
      rw [ha.2] at hp
      exact absurd hp (by decide))
  refine ⟨_, encodeAttrsLoop_eq _ _ _ _ _ hvs [], ?_⟩
  rw [List.nil_append, wire_length_sum _ _ _ _ _ hvs]
  have e : (1 : Byte) ≠ UserPassword := by decide
  simp [bigPacket, e]

/-! ## Encoding: header length, attribute region size, wire layout, oversized values -/

theorem forall₂_and_of_mem {α β : Type} {R P : α → β → Prop} {l : List α} {vs : List β}
    (h : List.Forall₂ R l vs) (hall : ∀ a v, a ∈ l → R a v → P a v) :
    List.Forall₂ (fun a v => R a v ∧ P a v) l vs := by
  induction h with
  | nil => exact List.Forall₂.nil
  | cons hav _ ih =>
    exact List.Forall₂.cons ⟨hav, hall _ _ (by simp) hav⟩
      (ih (fun a v ha => hall a v (by simp [ha])))

/-- C3 (as stated, refuted). On the packet of 258 attributes with 253-byte values
`encodeAttrs` produces 65790 bytes and `EncodePacket` returns 65810 bytes, while the
header Length left in the packet is 274, not 20 + 65790. -/
theorem header_length_counterexample :
    ∃ enc attrs_data, bigPacket.EncodePacket sampleMd5 [] = some enc ∧
      bigPacket.encodeAttrs sampleMd5 [] = some attrs_data ∧
      attrs_data.length = 65790 ∧ enc.data.length = 65810 ∧
      enc.packet.header.Length.val = 274 ∧
      enc.packet.header.Length.val ≠ 20 + attrs_data.length := by
  obtain ⟨ad, had, hlen⟩ := bigPacket_encodeAttrs sampleMd5 []
  refine ⟨_, ad, EncodePacket_eq _ _ _ _ had, had, hlen, ?_, ?_, ?_⟩
  · simp [hlen, bigPacket, Block16.zero]
  · simp only [hlen, uint16]
  · simp only [hlen, uint16]; decide

/-- C3 (amended). Whenever `EncodePacket` returns, the header Length stored in the
packet, and the big-endian 16-bit value at bytes 2..3 of the returned bytes, equal
20 + the number of attribute bytes produced by `encodeAttrs`, reduced modulo 65536;
the returned byte sequence has exactly 20 + that number of bytes. -/
theorem header_length_mod (md5 : List Byte → Block16) (p : RadiusPacket) (secret : List Byte)
    (enc : Encoded) (h : p.EncodePacket md5 secret = some enc) :
    ∃ attrs_data, p.encodeAttrs md5 secret = some attrs_data ∧
      enc.packet.header.Length.val = (20 + attrs_data.length) % 65536 ∧
      (enc.data.getD 2 0).val * 256 + (enc.data.getD 3 0).val
        = (20 + attrs_data.length) % 65536 ∧
      enc.data.length = 20 + attrs_data.length := by
  obtain ⟨ad, had⟩ := EncodePacket_some md5 p secret enc h
  rw [EncodePacket_eq _ _ _ _ had] at h
  simp only [Option.some.injEq] at h
  subst h
  refine ⟨ad, had, ?_, ?_, ?_⟩
  · simp [uint16, Nat.add_comm]
  · have := be16_value (ad.length + 20)
    simpa [Nat.add_comm] using this
  · simp [p.header.Authenticator.property]; omega

theorem header_length_mod_witness :
    ∃ attrs_data, samplePacket.encodeAttrs sampleMd5 [1, 2, 3] = some attrs_data ∧
      sampleEncoded.packet.header.Length.val = (20 + attrs_data.length) % 65536 ∧
      (sampleEncoded.data.getD 2 0).val * 256 + (sampleEncoded.data.getD 3 0).val
        = (20 + attrs_data.length) % 65536 ∧
      sampleEncoded.data.length = 20 + attrs_data.length :=
  header_length_mod sampleMd5 samplePacket [1, 2, 3] sampleEncoded (by decide)

/-- C4 (as stated, refuted). A packet with a single User-Password attribute whose
value has 3 bytes: `encodeAttrs` produces 18 bytes, not 3 + 2. -/
theorem attr_region_size_counterexample :
    ∃ attrs_data,
      RadiusPacket.encodeAttrs sampleMd5
        { samplePacket with Attributes := [{ Typ := UserPassword, Length := 0,
                                             Value := [97, 98, 99] }] } [1, 2, 3]
        = some attrs_data ∧
      attrs_data.length = 18 ∧
      attrs_data.length ≠ ([([97, 98, 99] : List Byte).length + 2]).sum := by
  refine ⟨[2, 18, 30, 238, 250, 166, 179, 192, 205, 218, 231, 244, 1, 14, 27, 40, 53, 66],
    by decide, by decide, by decide⟩

/-- C4 (amended). Whenever `encodeAttrs` returns, the number of bytes it produced is
the sum over the packet's attributes of (length of the emitted value + 2), where the
emitted value has 16 bytes for a User-Password attribute and is the attribute's own
value otherwise. -/
theorem attr_region_size (md5 : List Byte → Block16) (p : RadiusPacket) (secret : List Byte)
    (attrs_data : List Byte) (h : p.encodeAttrs md5 secret = some attrs_data) :
    attrs_data.length =
      (p.Attributes.map
        (fun a => (if a.Typ = UserPassword then 16 else a.Value.length) + 2)).sum := by
  obtain ⟨vs, hvs⟩ := encodeAttrsLoop_some md5 secret p.header.Authenticator p.Attributes [] _ h
  have he := encodeAttrsLoop_eq md5 secret p.header.Authenticator p.Attributes vs hvs []
  rw [RadiusPacket.encodeAttrs, he] at h
  simp only [Option.some.injEq, List.nil_append] at h
  rw [← h, wire_length_sum _ _ _ _ _ hvs]

theorem attr_region_size_witness :
    (sampleEncoded.data.drop 20).length =
      (samplePacket.Attributes.map
        (fun a => (if a.Typ = UserPassword then 16 else a.Value.length) + 2)).sum :=
  attr_region_size sampleMd5 samplePacket [1, 2, 3] (sampleEncoded.data.drop 20) (by decide)

/-- C9 (as stated, refuted). On the packet of 258 attributes with 253-byte values
`EncodePacket` returns 65810 bytes, and bytes 2..3 of them are 1 and 18, the
big-endian form of 274, not of the total length. -/
theorem wire_layout_counterexample :
    ∃ enc, bigPacket.EncodePacket sampleMd5 [] = some enc ∧
      (∀ a ∈ bigPacket.Attributes, a.Value.length ≤ 253 ∧ a.Typ ≠ UserPassword) ∧
      enc.data.length = 65810 ∧
      enc.data.getD 2 0 = 1 ∧ enc.data.getD 3 0 = 18 ∧
      (enc.data.getD 2 0).val * 256 + (enc.data.getD 3 0).val ≠ enc.data.length := by
  obtain ⟨ad, had, hlen⟩ := bigPacket_encodeAttrs sampleMd5 []
  have hb : ∀ a ∈ bigPacket.Attributes, a.Value.length ≤ 253 ∧ a.Typ ≠ UserPassword := by
    intro a ha
    simp only [bigPacket, List.mem_replicate] at ha
    rw [ha.2]
    exact ⟨by simp, by decide⟩
  refine ⟨_, EncodePacket_eq _ _ _ _ had, hb, ?_, ?_, ?_, ?_⟩
  · simp [hlen, bigPacket, Block16.zero]
  · simp only [hlen, uint16, uint8]; rfl
  · simp only [hlen, uint16, uint8]; rfl
  · simp only [hlen, uint16, uint8, bigPacket, Block16.zero]
    simp
    rw [hlen]
    decide

/-- C9 (amended). For every secret and every packet whose attribute values have at
most 253 bytes and whose User-Password values have at most 16 bytes, `EncodePacket`
returns, with a nil error, exactly: Code, Identifier, two bytes holding big-endian the
total number of returned bytes reduced modulo 65536, the 16 Authenticator bytes, then
for each attribute in packet order and without padding its type, the byte
(emitted value length + 2) and the emitted value, the emitted value being the
`encryptPassword` block for a User-Password attribute and the attribute's value
otherwise. -/
theorem wire_layout (md5 : List Byte → Block16) (p : RadiusPacket) (secret : List Byte)
    (hlen : ∀ a ∈ p.Attributes, a.Value.length ≤ 253)
    (hpw : ∀ a ∈ p.Attributes, a.Typ = UserPassword → a.Value.length ≤ 16) :
    ∃ (enc : Encoded) (vs : List (List Byte)) (hi lo : Byte),
      p.EncodePacket md5 secret = some enc ∧ enc.err = none ∧
      List.Forall₂
        (fun a v => emittedValue md5 secret p.header.Authenticator a = some v ∧
          (uint8 (v.length + 2)).val = v.length + 2) p.Attributes vs ∧
      hi.val * 256 + lo.val = enc.data.length % 65536 ∧
      enc.data = [p.header.Code, p.header.Identifier, hi, lo] ++ p.header.Authenticator.val
        ++ (List.zipWith (fun a v => a.Typ :: uint8 (v.length + 2) :: v)
              p.Attributes vs).flatten := by
  obtain ⟨vs, hvs⟩ := emittedValue_exists md5 secret p.header.Authenticator p.Attributes hpw
  have he := encodeAttrsLoop_eq md5 secret p.header.Authenticator p.Attributes vs hvs []
  rw [List.nil_append] at he
  refine ⟨_, vs, _, _, EncodePacket_eq _ _ _ _ he, rfl, ?_, ?_, rfl⟩
  · have hall : ∀ a v, a ∈ p.Attributes →
        emittedValue md5 secret p.header.Authenticator a = some v →
        (uint8 (v.length + 2)).val = v.length + 2 := by
      intro a v ha hav
      have hl := emittedValue_length _ _ _ _ _ hav
      have h253 := hlen a ha
      simp only [uint8]
      apply Nat.mod_eq_of_lt
      split at hl <;> omega
    exact forall₂_and_of_mem hvs hall
  · rw [be16_value]
    simp [p.header.Authenticator.property, wireOf]
    omega

theorem wire_layout_witness :
    ∃ (enc : Encoded) (vs : List (List Byte)) (hi lo : Byte),
      samplePacket.EncodePacket sampleMd5 [1, 2, 3] = some enc ∧ enc.err = none ∧
      List.Forall₂
        (fun a v => emittedValue sampleMd5 [1, 2, 3] samplePacket.header.Authenticator a = some v ∧
          (uint8 (v.length + 2)).val = v.length + 2) samplePacket.Attributes vs ∧
      hi.val * 256 + lo.val = enc.data.length % 65536 ∧
      enc.data = [samplePacket.header.Code, samplePacket.header.Identifier, hi, lo]
        ++ samplePacket.header.Authenticator.val
        ++ (List.zipWith (fun a v => a.Typ :: uint8 (v.length + 2) :: v)
              samplePacket.Attributes vs).flatten :=
  wire_layout sampleMd5 samplePacket [1, 2, 3] (by decide) (by decide)

theorem EncodePacket_of_short_passwords (md5 : List Byte → Block16) (p : RadiusPacket)
    (secret : List Byte)
    (hpw : ∀ a ∈ p.Attributes, a.Typ = UserPassword → a.Value.length ≤ 16) :
    ∃ enc, p.EncodePacket md5 secret = some enc ∧ enc.err = none ∧
      enc.data.length = 20 + (p.Attributes.map
        (fun a => (if a.Typ = UserPassword then 16 else a.Value.length) + 2)).sum := by
  obtain ⟨vs, hvs⟩ := emittedValue_exists md5 secret p.header.Authenticator p.Attributes hpw
  have he := encodeAttrsLoop_eq md5 secret p.header.Authenticator p.Attributes vs hvs []
  rw [List.nil_append] at he
  refine ⟨_, EncodePacket_eq _ _ _ _ he, rfl, ?_⟩
  simp only [List.length_append, List.length_cons, List.length_nil,
    p.header.Authenticator.property, wire_length_sum _ _ _ _ _ hvs]

theorem encodeAttrsLoop_long_password (md5 : List Byte → Block16) (secret : List Byte)
    (auth : Block16) (a : RadiusAttribute) (hp : a.Typ = UserPassword)
    (hlong : 16 < a.Value.length) (attrs : List RadiusAttribute) (ha : a ∈ attrs) :
    ∀ buf, encodeAttrsLoop md5 secret auth attrs buf = none := by
  induction attrs with
  | nil => simp at ha
  | cons b rest ih =>
    intro buf
    rw [encodeAttrsLoop_cons]
    rcases List.mem_cons.mp ha with hab | hrest
    · subst hab
      simp [emittedValue, hp, encryptPassword_none md5 secret a.Value auth hlong]
    · cases emittedValue md5 secret auth b with
      | none => rfl
      | some v => exact ih hrest _

/-- C10 (as stated, refuted). For the attribute of type 1 with a 254-byte value,
`Bytes` returns 256 bytes, the length byte being 0; `EncodePacket` of the packet
holding that attribute returns 276 bytes and a nil error. For a User-Password with a
254-byte value `Bytes` returns 256 bytes as well, and `EncodePacket` of the packet
holding it aborts in `encryptPassword`, without an error being reported. -/
theorem oversized_counterexample :
    ∃ bytes enc,
      RadiusAttribute.Bytes { Typ := 1, Length := 0, Value := List.replicate 254 0 } = some bytes ∧
      bytes.length = 256 ∧ bytes.getD 1 7 = 0 ∧
      oversizedPacket.EncodePacket sampleMd5 [] = some enc ∧
      enc.err = none ∧ enc.data.length = 276 ∧
      RadiusAttribute.Bytes { Typ := UserPassword, Length := 0, Value := List.replicate 254 0 }
        = some (UserPassword :: 0 :: List.replicate 254 0) ∧
      (NewRadiusPacket.AddAttributeByType UserPassword (List.replicate 254 0)).EncodePacket
        sampleMd5 [] = none := by
  obtain ⟨enc, henc, herr, hlen⟩ := EncodePacket_of_short_passwords sampleMd5 oversizedPacket []
    (by intro a ha hp
        simp only [oversizedPacket, List.mem_singleton] at ha
        rw [ha] at hp
        exact absurd hp (by decide))
  have hlong : (NewRadiusPacket.AddAttributeByType UserPassword (List.replicate 254 0)).EncodePacket
      sampleMd5 [] = none := by
    have hloop := encodeAttrsLoop_long_password sampleMd5 [] Block16.zero
      { Typ := UserPassword, Length := 0, Value := List.replicate 254 0 } rfl (by simp)
      [{ Typ := UserPassword, Length := 0, Value := List.replicate 254 0 }] (by simp) []
    simp only [RadiusPacket.EncodePacket, RadiusPacket.encodeAttrs,
      RadiusPacket.AddAttributeByType, NewRadiusPacket, List.nil_append, hloop]
  refine ⟨_, enc, Bytes_eq _, by simp, by simp [uint8], henc, herr, ?_, ?_, hlong⟩
  · rw [hlen]
    have e : (1 : Byte) ≠ UserPassword := by decide
    simp [oversizedPacket, e]
  · rw [Bytes_eq]
    simp [uint8]

/-- C10 (amended). An oversized attribute is not rejected: for every attribute whose
value is longer than 253 bytes, `RadiusAttribute.Bytes` returns a byte sequence, namely
the type byte, the byte ((value length + 2) mod 256) and the whole value; and when the
attribute is not a User-Password, `EncodePacket` of every packet that contains it and
has no User-Password value of more than 16 bytes returns the packet bytes, at least 276
of them, with a nil error. -/
theorem oversized_not_rejected (a : RadiusAttribute) (hbig : 253 < a.Value.length) :
    (∃ lengthByte : Byte, lengthByte.val = (a.Value.length + 2) % 256 ∧
      a.Bytes = some (a.Typ :: lengthByte :: a.Value)) ∧
    (a.Typ ≠ UserPassword →
      ∀ (md5 : List Byte → Block16) (p : RadiusPacket) (secret : List Byte),
        a ∈ p.Attributes →
        (∀ b ∈ p.Attributes, b.Typ = UserPassword → b.Value.length ≤ 16) →
        ∃ enc, p.EncodePacket md5 secret = some enc ∧ enc.err = none ∧
          enc.data.length = 20 + (p.Attributes.map
            (fun b => (if b.Typ = UserPassword then 16 else b.Value.length) + 2)).sum ∧
          20 + 256 ≤ enc.data.length) := by
  refine ⟨⟨uint8 (a.Value.length + 2), rfl, Bytes_eq a⟩, ?_⟩
  intro hnp md5 p secret ha hpw
  obtain ⟨enc, henc, herr, hlen⟩ := EncodePacket_of_short_passwords md5 p secret hpw
  refine ⟨enc, henc, herr, hlen, ?_⟩
  rw [hlen]
  have hle := List.single_le_sum (l := p.Attributes.map
      (fun b => (if b.Typ = UserPassword then 16 else b.Value.length) + 2))
    (fun x _ => Nat.zero_le x) _
    (List.mem_map.mpr ⟨a, ha, rfl⟩)
  simp only [hnp, if_false] at hle
  omega

theorem oversized_not_rejected_witness :
    (∃ lengthByte : Byte, lengthByte.val = ((List.replicate 254 (0 : Byte)).length + 2) % 256 ∧
      RadiusAttribute.Bytes { Typ := 1, Length := 0, Value := List.replicate 254 0 }
        = some (1 :: lengthByte :: List.replicate 254 0)) ∧
    ∃ enc, oversizedPacket.EncodePacket sampleMd5 [] = some enc ∧ enc.err = none ∧
      enc.data.length = 20 + (oversizedPacket.Attributes.map
        (fun b => (if b.Typ = UserPassword then 16 else b.Value.length) + 2)).sum ∧
      20 + 256 ≤ enc.data.length :=
  ⟨(oversized_not_rejected { Typ := 1, Length := 0, Value := List.replicate 254 0 }
      (by simp)).1,
   (oversized_not_rejected { Typ := 1, Length := 0, Value := List.replicate 254 0 }
      (by simp)).2 (by decide) sampleMd5 oversizedPacket [] (by simp [oversizedPacket])
      (by decide)⟩

/-! ## Decoding lemmas -/

theorem bufNext_of_two_le (r : List Byte) (L : Byte) (h : 2 ≤ L.val) :
    bufNext r ((L.val : Int) - 2) = some (r.take (L.val - 2), r.drop (L.val - 2)) := by
  unfold bufNext
  have h1 : ¬ ((L.val : Int) - 2 < 0) := by omega
  have h2 : ((L.val : Int) - 2).toNat = L.val - 2 := by omega
  rw [if_neg h1, h2]

theorem bufNext_of_lt_two (r : List Byte) (L : Byte) (h : L.val < 2) :
    bufNext r ((L.val : Int) - 2) = none := by
  unfold bufNext
  have h1 : ((L.val : Int) - 2 < 0) := by omega
  rw [if_pos h1]

theorem parseAttributesLoop_step (md5 : List Byte → Block16) (auth : Block16)
    (secret : List Byte) (fuel : Nat) (t L : Byte) (r : List Byte)
    (acc : List RadiusAttribute) (ht : t ≠ 0) (hL : 2 ≤ L.val) :
    parseAttributesLoop md5 auth secret (fuel + 1) (t :: L :: r) acc =
      if t = UserPassword then
        (decryptPassword md5 secret (r.take (L.val - 2)) auth).bind
          (fun v => parseAttributesLoop md5 auth secret fuel (r.drop (L.val - 2))
            (acc ++ [{ Typ := t, Length := L, Value := v }]))
      else
        parseAttributesLoop md5 auth secret fuel (r.drop (L.val - 2))
          (acc ++ [{ Typ := t, Length := L, Value := r.take (L.val - 2) }]) := by
  rw [parseAttributesLoop]
  simp only [if_neg ht, bufNext_of_two_le r L hL]
  split
  · cases decryptPassword md5 secret (List.take (L.val - 2) r) auth <;> rfl
  · rfl

theorem parseAttributesLoop_fuel (md5 : List Byte → Block16) (auth : Block16)
    (secret : List Byte) :
    ∀ (fuel₁ fuel₂ : Nat) (reader : List Byte) (acc : List RadiusAttribute),
      reader.length < fuel₁ → reader.length < fuel₂ →
      parseAttributesLoop md5 auth secret fuel₁ reader acc =
        parseAttributesLoop md5 auth secret fuel₂ reader acc := by
  intro fuel₁
  induction fuel₁ with
  | zero => intro _ _ _ h; omega
  | succ f₁ ih =>
    intro fuel₂ reader acc h₁ h₂
    cases fuel₂ with
    | zero => omega
    | succ f₂ =>
      match reader with
      | [] => simp [parseAttributesLoop]
      | [_] => simp [parseAttributesLoop]
      | t :: L :: r =>
        simp only [List.length_cons] at h₁ h₂
        by_cases ht : t = 0
        · rw [parseAttributesLoop, parseAttributesLoop]
          simp only [if_pos ht]
          exact ih _ _ _ (by omega) (by omega)
        · by_cases hL : 2 ≤ L.val
          · rw [parseAttributesLoop_step _ _ _ _ _ _ _ _ ht hL,
              parseAttributesLoop_step _ _ _ _ _ _ _ _ ht hL]
            have hd : (r.drop (L.val - 2)).length ≤ r.length := by simp
            split
            · cases decryptPassword md5 secret (List.take (L.val - 2) r) auth with
              | none => rfl
              | some v => exact ih _ _ _ (by omega) (by omega)
            · exact ih _ _ _ (by omega) (by omega)
          · rw [parseAttributesLoop, parseAttributesLoop]
            simp only [if_neg ht, bufNext_of_lt_two r L (by omega)]

theorem parseAttributesLoop_frames (md5 : List Byte → Block16) (auth : Block16)
    (secret : List Byte) (as as' : List RadiusAttribute)
    (h : List.Forall₂ (fun a a' => (a.Typ ≠ 0 ∧ a.Length.val = a.Value.length + 2) ∧
          ParsedFrom md5 secret auth a a') as as') :
    ∀ (rest : List Byte) (acc : List RadiusAttribute) (fuel : Nat),
      ((as.map RadiusAttribute.raw).flatten ++ rest).length < fuel →
      parseAttributesLoop md5 auth secret fuel ((as.map RadiusAttribute.raw).flatten ++ rest) acc =
        parseAttributesLoop md5 auth secret (rest.length + 1) rest (acc ++ as') := by
  induction h with
  | nil =>
    intro rest acc fuel hf
    simp only [List.map_nil, List.flatten_nil, List.nil_append, List.append_nil] at hf ⊢
    exact parseAttributesLoop_fuel _ _ _ _ _ _ _ hf (by omega)
  | @cons a a' l l' haa _ ih =>
    intro rest acc fuel hf
    obtain ⟨⟨ht, hL⟩, hT, hLen, hV⟩ := haa
    cases fuel with
    | zero => omega
    | succ f =>
      simp only [List.map_cons, List.flatten_cons, RadiusAttribute.raw, List.cons_append,
        List.length_cons, List.append_assoc] at hf ⊢
      rw [parseAttributesLoop_step _ _ _ _ _ _ _ _ ht (by omega)]
      have e : a.Length.val - 2 = a.Value.length := by omega
      have hf' : ((l.map RadiusAttribute.raw).flatten ++ rest).length < f := by
        rw [List.length_append] at hf; omega
      rw [e, List.take_left, List.drop_left]
      have ha' : a' = { Typ := a.Typ, Length := a.Length, Value := a'.Value } := by
        cases a'; simp_all
      by_cases hp : a.Typ = UserPassword
      · rw [if_pos hp] at hV
        rw [if_pos hp, hV, Option.some_bind, ih rest _ f hf', List.append_assoc, ← ha']
        rfl
      · rw [if_neg hp] at hV
        rw [if_neg hp, ih rest _ f hf', List.append_assoc, ← hV, ← ha']
        rfl

theorem readHeader_short (rawMsg : List Byte) (h : rawMsg.length < 20) :
    ∃ e, readHeader rawMsg = .error e := by
  match rawMsg with
  | [] => exact ⟨_, rfl⟩
  | [_] => exact ⟨_, rfl⟩
  | [_, _] => exact ⟨_, rfl⟩
  | [_, _, _] => exact ⟨_, rfl⟩
  | c :: i :: l1 :: l0 :: rest =>
    simp only [List.length_cons] at h
    have hn : ¬ (rest.take 16).length = 16 := by simp; omega
    exact ⟨IOError.ErrUnexpectedEOF, by simp only [readHeader, dif_neg hn]⟩

theorem readHeader_wire (c i l1 l0 : Byte) (auth : Block16) (rest : List Byte) :
    readHeader (c :: i :: l1 :: l0 :: (auth.val ++ rest)) =
      .ok { Code := c, Identifier := i, Length := uint16 (l1.val * 256 + l0.val),
            Authenticator := auth } := by
  have ht : (auth.val ++ rest).take 16 = auth.val := List.take_left' auth.property
  have hl : ((auth.val ++ rest).take 16).length = 16 := by rw [ht]; exact auth.property
  simp only [readHeader, dif_pos hl]
  congr 2
  exact Subtype.ext ht

theorem uint16_be16 (n : Nat) :
    uint16 ((uint8 ((uint16 n).val / 256)).val * 256 + (uint8 (uint16 n).val).val) = uint16 n := by
  apply Fin.ext
  simp only [uint8, uint16]
  omega

theorem foldl_AddAttribute (d : Dictionary) (raws : List RadiusAttribute)
    (h : ∀ a ∈ raws, d.attributes_to_code (d.nameOf a.Typ) = some a.Typ) :
    ∀ packet : RadiusPacket,
      raws.foldl (fun packet attr => (packet.AddAttribute d (d.nameOf attr.Typ) attr.Value).1)
          packet =
        { packet with Attributes := (packet.Attributes ++
            raws.map (fun a => { Typ := a.Typ, Length := 0, Value := a.Value })) } := by
  induction raws with
  | nil => intro packet; simp
  | cons a rest ih =>
    intro packet
    rw [List.foldl_cons, ih (fun x hx => h x (by simp [hx]))]
    simp [RadiusPacket.AddAttribute, h a (by simp)]

theorem ParseRADIUSPacket_of_header (d : Dictionary) (md5 : List Byte → Block16)
    (c i l1 l0 : Byte) (auth : Block16) (region secret : List Byte) :
    ParseRADIUSPacket d md5 (c :: i :: l1 :: l0 :: (auth.val ++ region)) secret =
      (parseAttributes md5 region auth secret).map (fun rawAttributes =>
        .ok (rawAttributes.foldl
          (fun packet attr => (packet.AddAttribute d (d.nameOf attr.Typ) attr.Value).1)
          { header := { Code := c, Identifier := i, Length := uint16 (l1.val * 256 + l0.val),
                        Authenticator := auth },
            Attributes := [] })) := by
  have hd : (c :: i :: l1 :: l0 :: (auth.val ++ region)).drop headerEnd = region := by
    have : headerEnd = 4 + auth.val.length := by rw [auth.property]; rfl
    rw [this]
    simp
  have hl : headerEnd ≤ (c :: i :: l1 :: l0 :: (auth.val ++ region)).length := by
    simp [headerEnd, auth.property]
  unfold ParseRADIUSPacket
  rw [readHeader_wire]
  simp only [if_pos hl, hd]
  cases parseAttributes md5 region auth secret <;> rfl

/-! ## Decoding: short header and truncated attribute -/

/-- C6. Short header detection: on every input of fewer than 20 bytes, the empty one
included, and for every secret, `ParseRADIUSPacket` returns an error and no packet. -/
theorem short_header_error (d : Dictionary) (md5 : List Byte → Block16)
    (rawMsg secret : List Byte) (h : rawMsg.length < 20) :
    ∃ e, ParseRADIUSPacket d md5 rawMsg secret = some (.error e) := by
  obtain ⟨e, he⟩ := readHeader_short rawMsg h
  exact ⟨e, by simp [ParseRADIUSPacket, he]⟩

theorem short_header_error_witness :
    ∃ e, ParseRADIUSPacket sampleDict sampleMd5 (List.replicate 19 1) (asciiBytes "testing123")
      = some (.error e) :=
  short_header_error sampleDict sampleMd5 (List.replicate 19 1) (asciiBytes "testing123")
    (by decide)

theorem parseAttributesLoop_truncated (md5 : List Byte → Block16) (auth : Block16)
    (secret : List Byte) (t L : Byte) (rest : List Byte) (acc : List RadiusAttribute)
    (fuel : Nat) (ht : t ≠ 0) (hL : 2 ≤ L.val) (htrunc : rest.length < L.val - 2) :
    parseAttributesLoop md5 auth secret (fuel + 2) (t :: L :: rest) acc =
      if t = UserPassword then
        (decryptPassword md5 secret rest auth).map
          (fun v => acc ++ [{ Typ := t, Length := L, Value := v }])
      else some (acc ++ [{ Typ := t, Length := L, Value := rest }]) := by
  rw [parseAttributesLoop_step _ _ _ _ _ _ _ _ ht hL,
    List.take_of_length_le (by omega), List.drop_of_length_le (by omega)]
  split
  · cases decryptPassword md5 secret rest auth <;> rfl
  · rfl

theorem parsedFrom_exists (md5 : List Byte → Block16) (secret : List Byte) (auth : Block16)
    (pre : List RadiusAttribute)
    (hpre : ∀ a ∈ pre, a.Typ ≠ 0 ∧ a.Length.val = a.Value.length + 2 ∧
      (a.Typ = UserPassword → a.Value.length ≤ 16)) :
    ∃ as', List.Forall₂ (fun a a' => (a.Typ ≠ 0 ∧ a.Length.val = a.Value.length + 2) ∧
          ParsedFrom md5 secret auth a a') pre as' := by
  induction pre with
  | nil => exact ⟨[], List.Forall₂.nil⟩
  | cons a rest ih =>
    obtain ⟨as', has'⟩ := ih (fun x hx => hpre x (by simp [hx]))
    obtain ⟨h0, hl, hp⟩ := hpre a (by simp)
    by_cases hpwd : a.Typ = UserPassword
    · obtain ⟨w, hw⟩ : ∃ w, decryptPassword md5 secret a.Value auth = some w :=
        ⟨_, decryptPassword_eq md5 secret a.Value auth (hp hpwd)⟩
      exact ⟨{ Typ := a.Typ, Length := a.Length, Value := w } :: as',
        List.Forall₂.cons ⟨⟨h0, hl⟩, rfl, rfl, by simp only [if_pos hpwd]; exact hw⟩ has'⟩
    · exact ⟨{ Typ := a.Typ, Length := a.Length, Value := a.Value } :: as',
        List.Forall₂.cons ⟨⟨h0, hl⟩, rfl, rfl, by simp only [if_neg hpwd]⟩ has'⟩

/-- C5 (as stated, refuted). Twenty header bytes followed by an attribute of type 1
that declares length 10 with only 3 bytes remaining: `ParseRADIUSPacket` returns a
packet and no error, the attribute holding the 3 remaining bytes. -/
theorem truncation_counterexample :
    ParseRADIUSPacket sampleDict sampleMd5 truncatedMsg (asciiBytes "testing123") =
      some (.ok { header := { Code := 1, Identifier := 7, Length := 25,
                              Authenticator := Block16.zero },
                  Attributes := [{ Typ := 1, Length := 0, Value := [1, 2, 3] }] }) := by
  decide

/-- C5 (amended). Truncation is not detected. For every secret and every input made
of 20 header bytes, then complete attributes (non-zero type, length byte equal to the
value length + 2, at most 16 value bytes for User-Password), then an attribute header
of non-zero type declaring a length L >= 2 with fewer than L-2 bytes remaining after
it (at most 16 for User-Password): `ParseRADIUSPacket` returns a packet and a nil
error; `parseAttributes` gives that last attribute the remaining bytes as its value
(passed through `decryptPassword` for User-Password), and when the dictionary resolves
the name of its code to a code, the returned packet ends with an attribute of that
code and that value. -/
theorem truncation_accepted (d : Dictionary) (md5 : List Byte → Block16) (secret : List Byte)
    (c i l1 l0 : Byte) (auth : Block16) (pre : List RadiusAttribute) (t L : Byte)
    (rest : List Byte)
    (hpre : ∀ a ∈ pre, a.Typ ≠ 0 ∧ a.Length.val = a.Value.length + 2 ∧
      (a.Typ = UserPassword → a.Value.length ≤ 16))
    (ht : t ≠ 0) (hL : 2 ≤ L.val) (htrunc : rest.length < L.val - 2)
    (hpw : t = UserPassword → rest.length ≤ 16) :
    ∃ (packet : RadiusPacket) (raws : List RadiusAttribute) (value : List Byte),
      ParseRADIUSPacket d md5
        (c :: i :: l1 :: l0 :: (auth.val ++ ((pre.map RadiusAttribute.raw).flatten
          ++ t :: L :: rest))) secret = some (.ok packet) ∧
      parseAttributes md5 ((pre.map RadiusAttribute.raw).flatten ++ t :: L :: rest) auth secret
        = some (raws ++ [{ Typ := t, Length := L, Value := value }]) ∧
      raws.length = pre.length ∧
      (t ≠ UserPassword → value = rest) ∧
      (t = UserPassword → decryptPassword md5 secret rest auth = some value) ∧
      (∀ code, d.attributes_to_code (d.nameOf t) = some code →
        ∃ earlier, packet.Attributes = earlier ++ [{ Typ := code, Length := 0, Value := value }])
    := by
  obtain ⟨as', has'⟩ := parsedFrom_exists md5 secret auth pre hpre
  have hlen : as'.length = pre.length := (List.Forall₂.length_eq has').symm
  have hframes := parseAttributesLoop_frames md5 auth secret pre as' has' (t :: L :: rest) []
    (((pre.map RadiusAttribute.raw).flatten ++ t :: L :: rest).length + 1) (by omega)
  have hfuel : (t :: L :: rest).length + 1 = rest.length + 1 + 2 := by simp
  have hparse : ∀ value, (if t = UserPassword then
        (decryptPassword md5 secret rest auth).map
          (fun v => ([] ++ as') ++ [({ Typ := t, Length := L, Value := v } : RadiusAttribute)])
      else some (([] ++ as') ++ [{ Typ := t, Length := L, Value := rest }]))
        = some (as' ++ [{ Typ := t, Length := L, Value := value }]) →
      parseAttributes md5 ((pre.map RadiusAttribute.raw).flatten ++ t :: L :: rest) auth secret
        = some (as' ++ [{ Typ := t, Length := L, Value := value }]) := by
    intro value hv
    rw [parseAttributes, hframes, hfuel,
      parseAttributesLoop_truncated _ _ _ _ _ _ _ _ ht hL htrunc, hv]
  have hpacket : ∀ value,
      parseAttributes md5 ((pre.map RadiusAttribute.raw).flatten ++ t :: L :: rest) auth secret
        = some (as' ++ [{ Typ := t, Length := L, Value := value }]) →
      ∃ packet, ParseRADIUSPacket d md5
        (c :: i :: l1 :: l0 :: (auth.val ++ ((pre.map RadiusAttribute.raw).flatten
          ++ t :: L :: rest))) secret = some (.ok packet) ∧
        (∀ code, d.attributes_to_code (d.nameOf t) = some code →
          ∃ earlier, packet.Attributes = earlier ++ [{ Typ := code, Length := 0, Value := value }])
      := by
    intro value hv
    refine ⟨_, by rw [ParseRADIUSPacket_of_header, hv]; rfl, ?_⟩
    intro code hcode
    rw [List.foldl_append]
    simp only [List.foldl_cons, List.foldl_nil, RadiusPacket.AddAttribute, hcode]
    exact ⟨_, rfl⟩
  by_cases hpwd : t = UserPassword
  · obtain ⟨w, hdec⟩ : ∃ w, decryptPassword md5 secret rest auth = some w :=
      ⟨_, decryptPassword_eq md5 secret rest auth (hpw hpwd)⟩
    have hv := hparse w (by rw [if_pos hpwd, hdec]; simp)
    obtain ⟨packet, hpk, hlast⟩ := hpacket _ hv
    exact ⟨packet, as', _, hpk, hv, hlen, fun h => absurd hpwd h, fun _ => hdec, hlast⟩
  · have hv := hparse rest (by rw [if_neg hpwd]; simp)
    obtain ⟨packet, hpk, hlast⟩ := hpacket _ hv
    exact ⟨packet, as', rest, hpk, hv, hlen, fun _ => rfl, fun h => absurd h hpwd, hlast⟩

theorem truncation_accepted_witness :
    ∃ (packet : RadiusPacket) (raws : List RadiusAttribute) (value : List Byte),
      ParseRADIUSPacket sampleDict sampleMd5
        (1 :: 7 :: 0 :: 25 :: (Block16.zero.val ++
          (([] : List RadiusAttribute).map RadiusAttribute.raw).flatten ++ 1 :: 10 :: [1, 2, 3]))
        (asciiBytes "testing123") = some (.ok packet) ∧
      parseAttributes sampleMd5
        ((([] : List RadiusAttribute).map RadiusAttribute.raw).flatten ++ 1 :: 10 :: [1, 2, 3])
        Block16.zero (asciiBytes "testing123")
        = some (raws ++ [{ Typ := 1, Length := 10, Value := value }]) ∧
      raws.length = ([] : List RadiusAttribute).length ∧
      ((1 : Byte) ≠ UserPassword → value = [1, 2, 3]) ∧
      ((1 : Byte) = UserPassword →
        decryptPassword sampleMd5 (asciiBytes "testing123") [1, 2, 3] Block16.zero = some value) ∧
      (∀ code, sampleDict.attributes_to_code (sampleDict.nameOf 1) = some code →
        ∃ earlier, packet.Attributes = earlier ++ [{ Typ := code, Length := 0, Value := value }]) :=
  truncation_accepted sampleDict sampleMd5 (asciiBytes "testing123") 1 7 0 25 Block16.zero
    [] 1 10 [1, 2, 3] (by simp) (by decide) (by decide) (by decide) (by decide)

/-! ## Packet model: GetAttribute and AddAttribute -/

theorem getAttributeLoop_no_match (code : Byte) (attrs : List RadiusAttribute)
    (h : ∀ a ∈ attrs, a.Typ ≠ code) (acc : List (List Byte)) :
    getAttributeLoop code attrs acc = some acc := by
  induction attrs with
  | nil => rfl
  | cons a rest ih =>
    rw [getAttributeLoop, if_neg (h a (by simp))]
    exact ih (fun x hx => h x (by simp [hx]))

theorem getAttributeLoop_append (code : Byte) (pre post : List RadiusAttribute)
    (h : ∀ a ∈ pre, a.Typ ≠ code) (acc : List (List Byte)) :
    getAttributeLoop code (pre ++ post) acc = getAttributeLoop code post acc := by
  induction pre with
  | nil => rfl
  | cons a rest ih =>
    rw [List.cons_append, getAttributeLoop, if_neg (h a (by simp))]
    exact ih (fun x hx => h x (by simp [hx]))

/-- C7. Vendor unwrap: when the dictionary resolves the name `n` to the
Vendor-Specific code, and the packet holds exactly one attribute of that code, whose
value is the 4 bytes of vendorId, then vendorType, then vendorLength = payload size + 2,
then the payload, `GetAttribute(n)` returns exactly the one-element list `[payload]`. -/
theorem vendor_unwrap (d : Dictionary) (p : RadiusPacket) (n : String)
    (pre post : List RadiusAttribute) (storedLength b0 b1 b2 b3 vendorType vendorLength : Byte)
    (payload : List Byte)
    (hn : d.attributes_to_code n = some VendorSpecific)
    (hp : p.Attributes = pre ++
      [{ Typ := VendorSpecific, Length := storedLength,
         Value := b0 :: b1 :: b2 :: b3 :: vendorType :: vendorLength :: payload }] ++ post)
    (hpre : ∀ a ∈ pre, a.Typ ≠ VendorSpecific) (hpost : ∀ a ∈ post, a.Typ ≠ VendorSpecific)
    (hvl : vendorLength.val = payload.length + 2) :
    p.GetAttribute d n = some [payload] := by
  rw [RadiusPacket.GetAttribute, hn, hp, List.append_assoc]
  show getAttributeLoop VendorSpecific _ [] = _
  rw [getAttributeLoop_append _ _ _ hpre, List.singleton_append, getAttributeLoop]
  simp only [if_true, readVSA, bufNext]
  have h1 : ¬ ((vendorLength.val : Int) < 0) := by omega
  have h2 : payload.take ((vendorLength.val : Int)).toNat = payload := by
    apply List.take_of_length_le
    omega
  simp only [if_neg h1, h2, List.nil_append]
  exact getAttributeLoop_no_match _ _ hpost _

theorem vendor_unwrap_witness :
    vendorPacket.GetAttribute sampleDict "Vendor-Specific" = some [asciiBytes "ciscoval"] :=
  vendor_unwrap sampleDict vendorPacket "Vendor-Specific"
    [{ Typ := 1, Length := 0, Value := asciiBytes "bob" }] [] 0 0 0 0 9 1 10
    (asciiBytes "ciscoval") (by decide) rfl (by decide) (by simp) (by decide)

/-- C8. Dictionary miss and hit: for a name that is not a key of the name-to-code
dictionary `AddAttribute` returns an error and leaves the packet (attributes and
header) unchanged; for a name the dictionary resolves it returns no error and the
packet keeps its header, its attribute sequence becoming the old one followed by one
attribute with the resolved code and the given value. -/
theorem AddAttribute_miss_hit (d : Dictionary) (p : RadiusPacket) (name : String)
    (value : List Byte) :
    (d.attributes_to_code name = none →
      (p.AddAttribute d name value).2 = some IOError.AttributeNotFound ∧
      (p.AddAttribute d name value).1 = p) ∧
    (∀ code, d.attributes_to_code name = some code →
      (p.AddAttribute d name value).2 = none ∧
      (p.AddAttribute d name value).1.header = p.header ∧
      ∃ attr : RadiusAttribute, attr.Typ = code ∧ attr.Value = value ∧
        (p.AddAttribute d name value).1.Attributes = p.Attributes ++ [attr]) := by
  constructor
  · intro h
    simp [RadiusPacket.AddAttribute, h]
  · intro code h
    simp [RadiusPacket.AddAttribute, h]

theorem AddAttribute_miss_hit_witness :
    ((samplePacket.AddAttribute sampleDict "NotARealAttribute" [1, 2]).2
        = some IOError.AttributeNotFound ∧
      (samplePacket.AddAttribute sampleDict "NotARealAttribute" [1, 2]).1 = samplePacket) ∧
    ((samplePacket.AddAttribute sampleDict "User-Name" [1, 2]).2 = none ∧
      (samplePacket.AddAttribute sampleDict "User-Name" [1, 2]).1.header = samplePacket.header ∧
      ∃ attr : RadiusAttribute, attr.Typ = 1 ∧ attr.Value = [1, 2] ∧
        (samplePacket.AddAttribute sampleDict "User-Name" [1, 2]).1.Attributes
          = samplePacket.Attributes ++ [attr]) :=
  ⟨(AddAttribute_miss_hit sampleDict samplePacket "NotARealAttribute" [1, 2]).1 (by decide),
   (AddAttribute_miss_hit sampleDict samplePacket "User-Name" [1, 2]).2 1 (by decide)⟩

/-! ## Round trip -/

theorem indexZero_zero_cons (rest : List Byte) : indexZero (0 :: rest) = 0 := by
  simp [indexZero]

theorem cutAtZero_padded_rel (w : List Byte) (k : Nat) (hz : ∀ x ∈ w, x ≠ 0)
    (h16 : (w ++ List.replicate k (0 : Byte)).length ≤ 16) :
    ∃ j, cutAtZero ((w ++ List.replicate k 0) ++
            List.replicate (16 - (w ++ List.replicate k (0 : Byte)).length) 0)
          = (w ++ List.replicate k 0) ++ List.replicate j 0 ∨
        w ++ List.replicate k 0 =
          cutAtZero ((w ++ List.replicate k 0) ++
            List.replicate (16 - (w ++ List.replicate k (0 : Byte)).length) 0)
          ++ List.replicate j 0 := by
  simp only [List.length_append, List.length_replicate] at h16
  have hpad : (w ++ List.replicate k 0) ++
      List.replicate (16 - (w ++ List.replicate k (0 : Byte)).length) 0
        = w ++ List.replicate (16 - w.length) 0 := by
    rw [List.append_assoc, List.append_replicate_replicate]
    congr 2
    simp only [List.length_append, List.length_replicate]
    omega
  rw [hpad]
  rcases Nat.eq_zero_or_pos w.length with h0 | hpos
  · -- no non-zero byte at all: the first zero is at index 0 and nothing is cut
    have hw : w = [] := List.length_eq_zero.mp h0
    subst hw
    refine ⟨16 - k, Or.inl ?_⟩
    have : cutAtZero (List.replicate 16 (0 : Byte)) = List.replicate 16 0 := by decide
    simp only [List.nil_append, List.length_nil, Nat.sub_zero, this,
      List.append_replicate_replicate]
    congr 1
    omega
  · rcases Nat.lt_or_ge w.length 16 with hlt | hge
    · refine ⟨k, Or.inr ?_⟩
      obtain ⟨m, hm⟩ : ∃ m, 16 - w.length = m + 1 := ⟨15 - w.length, by omega⟩
      have hi : indexZero (w ++ List.replicate (16 - w.length) 0) = w.length := by
        rw [hm, List.replicate_succ, indexZero_append_zero _ _ hz]
      have hgt : indexZero (w ++ List.replicate (16 - w.length) 0) > 0 := by
        rw [hi]; exact_mod_cast hpos
      rw [cutAtZero, if_pos hgt, hi]
      simp
    · refine ⟨0, Or.inl ?_⟩
      have ek : k = 0 := by omega
      have e16 : 16 - w.length = 0 := by omega
      subst ek
      rw [e16]
      simp only [List.replicate_zero, List.append_nil]
      rw [cutAtZero, indexZero_of_no_zero _ hz]
      simp

theorem zipWith_wireOf_eq (attrs : List RadiusAttribute) (vs : List (List Byte)) :
    (List.zipWith wireOf attrs vs).flatten
      = ((List.zipWith emittedAttr attrs vs).map RadiusAttribute.raw).flatten := by
  induction attrs generalizing vs with
  | nil => simp
  | cons a rest ih =>
    cases vs with
    | nil => simp
    | cons v vs => simp [ih, wireOf, emittedAttr, RadiusAttribute.raw]

theorem roundtrip_attrs (md5 : List Byte → Block16) (secret : List Byte) (auth : Block16)
    (attrs : List RadiusAttribute)
    (hlen : ∀ a ∈ attrs, a.Value.length ≤ 253)
    (htyp : ∀ a ∈ attrs, a.Typ ≠ 0)
    (hpw : ∀ a ∈ attrs, a.Typ = UserPassword → a.Value.length ≤ 16) :
    ∃ vs, List.Forall₂ (fun a v => emittedValue md5 secret auth a = some v) attrs vs ∧
      List.Forall₂ (fun a a' => (a.Typ ≠ 0 ∧ a.Length.val = a.Value.length + 2) ∧
          ParsedFrom md5 secret auth a a')
        (List.zipWith emittedAttr attrs vs)
        (attrs.map (fun a => { Typ := a.Typ, Length := uint8 ((if a.Typ = UserPassword then 16
            else a.Value.length) + 2), Value := reproducedValue a })) := by
  induction attrs with
  | nil => exact ⟨[], List.Forall₂.nil, List.Forall₂.nil⟩
  | cons a rest ih =>
    obtain ⟨vs, hvs, hparsed⟩ := ih (fun x hx => hlen x (by simp [hx]))
      (fun x hx => htyp x (by simp [hx])) (fun x hx => hpw x (by simp [hx]))
    have h0 := htyp a (by simp)
    have h253 := hlen a (by simp)
    by_cases hp : a.Typ = UserPassword
    · have h16 := hpw a (by simp) hp
      have he := encryptPassword_eq md5 secret a.Value auth h16
      refine ⟨_ :: vs, List.Forall₂.cons (by simp only [emittedValue, hp, if_true]; exact he) hvs,
        ?_⟩
      simp only [List.zipWith_cons_cons, List.map_cons]
      refine List.Forall₂.cons ⟨⟨h0, ?_⟩, rfl, ?_, ?_⟩ hparsed
      · simp [emittedAttr, xorBlock, uint8]
        rfl
      · simp [emittedAttr, xorBlock, hp]
      · simp only [emittedAttr, hp, if_true, reproducedValue]
        exact decrypt_xorBlock md5 secret _ auth (by simp; omega)
    · refine ⟨a.Value :: vs, List.Forall₂.cons (by simp [emittedValue, hp]) hvs, ?_⟩
      simp only [List.zipWith_cons_cons, List.map_cons]
      refine List.Forall₂.cons ⟨⟨h0, ?_⟩, rfl, ?_, ?_⟩ hparsed
      · simp only [emittedAttr, uint8]
        exact Nat.mod_eq_of_lt (by omega)
      · simp [emittedAttr, hp]
      · simp [emittedAttr, hp, reproducedValue]

theorem parse_encode (d : Dictionary) (md5 : List Byte → Block16) (secret : List Byte)
    (p : RadiusPacket)
    (hlen : ∀ a ∈ p.Attributes, a.Value.length ≤ 253)
    (htyp : ∀ a ∈ p.Attributes, a.Typ ≠ 0 ∧ d.attributes_to_code (d.nameOf a.Typ) = some a.Typ)
    (hpw : ∀ a ∈ p.Attributes, a.Typ = UserPassword → a.Value.length ≤ 16) :
    ∃ enc, p.EncodePacket md5 secret = some enc ∧
      enc.packet.header.Code = p.header.Code ∧
      enc.packet.header.Identifier = p.header.Identifier ∧
      enc.packet.header.Authenticator = p.header.Authenticator ∧
      ParseRADIUSPacket d md5 enc.data secret =
        some (.ok { header := enc.packet.header,
                    Attributes := p.Attributes.map
                      (fun a => { Typ := a.Typ, Length := 0, Value := reproducedValue a }) }) := by
  obtain ⟨vs, hvs, hparsed⟩ := roundtrip_attrs md5 secret p.header.Authenticator p.Attributes
    hlen (fun a ha => (htyp a ha).1) hpw
  have he := encodeAttrsLoop_eq md5 secret p.header.Authenticator p.Attributes vs hvs []
  rw [List.nil_append] at he
  refine ⟨_, EncodePacket_eq _ _ _ _ he, rfl, rfl, rfl, ?_⟩
  simp only [List.append_assoc, List.cons_append, List.nil_append]
  rw [ParseRADIUSPacket_of_header, zipWith_wireOf_eq]
  have hframes := parseAttributesLoop_frames md5 p.header.Authenticator secret _ _ hparsed [] []
    ((((List.zipWith emittedAttr p.Attributes vs).map RadiusAttribute.raw).flatten ++ []).length
      + 1) (by omega)
  rw [List.append_nil] at hframes
  rw [parseAttributes, hframes]
  simp only [List.length_nil, Nat.zero_add, parseAttributesLoop, List.nil_append,
    Option.map_some']
  rw [foldl_AddAttribute]
  · simp [uint16_be16, List.map_map, Function.comp_def]
  · intro a ha
    obtain ⟨b, hb, rfl⟩ := List.mem_map.mp ha
    exact (htyp b hb).2

theorem trailing_zeros_split (v : List Byte)
    (h : ∀ x ∈ v.dropWhile (fun b => decide (b ≠ 0)), x = 0) :
    ∃ w k, v = w ++ List.replicate k 0 ∧ ∀ x ∈ w, x ≠ 0 := by
  refine ⟨v.takeWhile (fun b => decide (b ≠ 0)),
    (v.dropWhile (fun b => decide (b ≠ 0))).length, ?_, ?_⟩
  · have hd : v.dropWhile (fun b => decide (b ≠ 0))
        = List.replicate (v.dropWhile (fun b => decide (b ≠ 0))).length 0 :=
      List.eq_replicate_iff.mpr ⟨rfl, h⟩
    rw [← hd, List.takeWhile_append_dropWhile]
  · intro x hx
    have := List.mem_takeWhile_imp hx
    simpa using this

theorem cutAtZero_leading_zero (rest pad : List Byte) :
    cutAtZero ((0 :: rest) ++ pad) = (0 :: rest) ++ pad := by
  simp [cutAtZero, indexZero]

theorem reproducedValue_padding (a : RadiusAttribute) (hp : a.Typ = UserPassword)
    (h16 : a.Value.length ≤ 16)
    (hz : a.Value.head? = some 0 ∨
      ∀ x ∈ a.Value.dropWhile (fun b => decide (b ≠ 0)), x = 0) :
    ∃ k, reproducedValue a = a.Value ++ List.replicate k 0 ∨
      a.Value = reproducedValue a ++ List.replicate k 0 := by
  simp only [reproducedValue, hp, if_true]
  rcases hz with hhead | htrail
  · -- a leading zero byte: the first zero is at index 0 and nothing is cut
    cases hv : a.Value with
    | nil => rw [hv] at hhead; simp at hhead
    | cons b rest =>
      rw [hv] at hhead
      simp only [List.head?_cons, Option.some.injEq] at hhead
      subst hhead
      exact ⟨16 - (0 :: rest).length, Or.inl (cutAtZero_leading_zero rest _)⟩
  · obtain ⟨w, k, hv, hw⟩ := trailing_zeros_split a.Value htrail
    have hrel := cutAtZero_padded_rel w k hw (by rw [← hv]; exact h16)
    rw [hv]
    exact hrel

/-- C1 (as stated, refuted). Four packets whose attribute values have at most 253
bytes. One attribute of type 0 and empty value: `EncodePacket` returns 22 bytes and
`ParseRADIUSPacket` of them returns a packet without any attribute. One attribute of
type 9, which `sampleDict` does not name: the parsed packet has no attribute either.
One User-Password of 17 bytes: `EncodePacket` aborts. One User-Password 5, 0, 7: the
parsed packet holds the value 5, which differs from 5, 0, 7 by more than trailing
zeros. -/
theorem round_trip_counterexample :
    (∃ enc q,
      (NewRadiusPacket.AddAttributeByType 0 []).EncodePacket sampleMd5 (asciiBytes "testing123")
        = some enc ∧
      (∀ a ∈ (NewRadiusPacket.AddAttributeByType 0 []).Attributes, a.Value.length ≤ 253) ∧
      ParseRADIUSPacket sampleDict sampleMd5 enc.data (asciiBytes "testing123") = some (.ok q) ∧
      (NewRadiusPacket.AddAttributeByType 0 []).Attributes.map (fun a => a.Typ) = [0] ∧
      q.Attributes.map (fun a => a.Typ) = []) ∧
    (sampleDict.code_to_attributes 9 = none ∧
      ((NewRadiusPacket.AddAttributeByType 9 [5]).EncodePacket sampleMd5
          (asciiBytes "testing123")).bind
        (fun enc => ParseRADIUSPacket sampleDict sampleMd5 enc.data (asciiBytes "testing123"))
        = some (.ok { header := { Code := 0, Identifier := 0, Length := 23,
                                  Authenticator := Block16.zero },
                      Attributes := [] })) ∧
    ((NewRadiusPacket.AddAttributeByType UserPassword (List.replicate 17 1)).EncodePacket
        sampleMd5 (asciiBytes "testing123") = none) ∧
    (((NewRadiusPacket.AddAttributeByType UserPassword [5, 0, 7]).EncodePacket sampleMd5
          (asciiBytes "testing123")).bind
        (fun enc => ParseRADIUSPacket sampleDict sampleMd5 enc.data (asciiBytes "testing123"))
        = some (.ok { header := { Code := 0, Identifier := 0, Length := 38,
                                  Authenticator := Block16.zero },
                      Attributes := [{ Typ := UserPassword, Length := 0, Value := [5] }] }) ∧
      ∀ k, ([5] : List Byte) ≠ [5, 0, 7] ++ List.replicate k 0 ∧
        ([5, 0, 7] : List Byte) ≠ [5] ++ List.replicate k 0) := by
  refine ⟨⟨{ data := [0, 0, 0, 22, 0, 0, 0, 0, 0, 0, 0, 0, 0, 0, 0, 0, 0, 0, 0, 0, 0, 2],
             err := none,
             packet := { header := { Code := 0, Identifier := 0, Length := 22,
                                     Authenticator := Block16.zero },
                         Attributes := [{ Typ := 0, Length := 0, Value := [] }] } },
           { header := { Code := 0, Identifier := 0, Length := 22,
                         Authenticator := Block16.zero },
             Attributes := [] }, by decide, by decide, by decide, by decide, by decide⟩,
    ⟨by decide, by decide⟩, by decide, by decide, ?_⟩
  intro k
  constructor
  · intro h
    have := congrArg List.length h
    simp at this
  · intro h
    have hlen := congrArg List.length h
    simp only [List.length_cons, List.length_nil, List.length_append,
      List.length_replicate] at hlen
    have hk : k = 2 := by omega
    subst hk
    revert h
    decide

/-- C1 (amended). Packet round trip: for every secret and every packet whose attribute
values all have length 0 to 253, whose attribute type codes are all non-zero and such
that the name-to-code dictionary maps the name `code_to_attributes[code]` back to the
same code, and whose User-Password values have at most 16 bytes and either start with a
zero byte or have no zero byte before a non-zero byte,
`ParseRADIUSPacket(EncodePacket(p, s), s)` succeeds and yields a packet with the same
Code, the same Identifier, and the same sequence of attribute type codes and attribute
values in the same order, except that the value of a User-Password attribute may differ
in trailing zero padding. -/
theorem round_trip (d : Dictionary) (md5 : List Byte → Block16) (secret : List Byte)
    (p : RadiusPacket)
    (hlen : ∀ a ∈ p.Attributes, a.Value.length ≤ 253)
    (htyp : ∀ a ∈ p.Attributes, a.Typ ≠ 0 ∧ d.attributes_to_code (d.nameOf a.Typ) = some a.Typ)
    (hpw : ∀ a ∈ p.Attributes, a.Typ = UserPassword →
      a.Value.length ≤ 16 ∧
      (a.Value.head? = some 0 ∨
        ∀ x ∈ a.Value.dropWhile (fun b => decide (b ≠ 0)), x = 0)) :
    ∃ enc q, p.EncodePacket md5 secret = some enc ∧
      ParseRADIUSPacket d md5 enc.data secret = some (.ok q) ∧
      q.header.Code = p.header.Code ∧ q.header.Identifier = p.header.Identifier ∧
      List.Forall₂
        (fun a a' => a'.Typ = a.Typ ∧
          (a.Typ ≠ UserPassword → a'.Value = a.Value) ∧
          (a.Typ = UserPassword → ∃ k, a'.Value = a.Value ++ List.replicate k 0 ∨
            a.Value = a'.Value ++ List.replicate k 0))
        p.Attributes q.Attributes := by
  obtain ⟨enc, henc, hcode, hid, _, hparse⟩ := parse_encode d md5 secret p hlen htyp
    (fun a ha hp => (hpw a ha hp).1)
  refine ⟨enc, _, henc, hparse, hcode, hid, ?_⟩
  rw [List.forall₂_map_right_iff, List.forall₂_same]
  intro a ha
  refine ⟨rfl, ?_, ?_⟩
  · intro hp
    simp [reproducedValue, hp]
  · intro hp
    obtain ⟨h16, hz⟩ := hpw a ha hp
    exact reproducedValue_padding a hp h16 hz

theorem round_trip_witness :
    ∃ enc q, leadingZeroPacket.EncodePacket sampleMd5 (asciiBytes "testing123") = some enc ∧
      ParseRADIUSPacket sampleDict sampleMd5 enc.data (asciiBytes "testing123") = some (.ok q) ∧
      q.header.Code = leadingZeroPacket.header.Code ∧
      q.header.Identifier = leadingZeroPacket.header.Identifier ∧
      List.Forall₂
        (fun a a' => a'.Typ = a.Typ ∧
          (a.Typ ≠ UserPassword → a'.Value = a.Value) ∧
          (a.Typ = UserPassword → ∃ k, a'.Value = a.Value ++ List.replicate k 0 ∨
            a.Value = a'.Value ++ List.replicate k 0))
        leadingZeroPacket.Attributes q.Attributes :=
  round_trip sampleDict sampleMd5 (asciiBytes "testing123") leadingZeroPacket
    (by decide) (by decide) (by decide)

/-! ## Decoding: aborts, unknown codes, type zero -/

theorem parseAttributesLoop_short_length (md5 : List Byte → Block16) (auth : Block16)
    (secret : List Byte) (fuel : Nat) (t L : Byte) (r : List Byte)
    (acc : List RadiusAttribute) (ht : t ≠ 0) (hL : L.val < 2) :
    parseAttributesLoop md5 auth secret (fuel + 1) (t :: L :: r) acc = none := by
  rw [parseAttributesLoop]
  simp only [if_neg ht, bufNext_of_lt_two r L hL]
  split <;> rfl

/-- C11 (the code at the failing inputs). `ParseRADIUSPacket` aborts, returning neither a
packet nor an error, on twenty header bytes followed by an attribute header of type 1
with length byte 1, or with length byte 0, and on twenty header bytes followed by a
User-Password attribute carrying 17 value bytes. -/
theorem decode_aborts :
    ParseRADIUSPacket sampleDict sampleMd5 shortLengthMsg (asciiBytes "testing123") = none ∧
    ParseRADIUSPacket sampleDict sampleMd5 zeroLengthMsg (asciiBytes "testing123") = none ∧
    ParseRADIUSPacket sampleDict sampleMd5 longPasswordMsg (asciiBytes "testing123") = none := by
  decide

theorem foldl_AddAttribute_filterMap (d : Dictionary) (raws : List RadiusAttribute) :
    ∀ packet : RadiusPacket,
      raws.foldl (fun packet attr => (packet.AddAttribute d (d.nameOf attr.Typ) attr.Value).1)
          packet =
        { packet with Attributes := (packet.Attributes ++ raws.filterMap (resolved d)) } := by
  induction raws with
  | nil => intro packet; simp
  | cons a rest ih =>
    intro packet
    rw [List.foldl_cons, ih]
    cases h : d.attributes_to_code (d.nameOf a.Typ) with
    | none => simp [RadiusPacket.AddAttribute, resolved, h]
    | some code => simp [RadiusPacket.AddAttribute, resolved, h]

/-- C12 (as stated, refuted). Twenty header bytes, a User-Name attribute and a
well-formed attribute of type 9 with the value byte 5, type 9 having no name in
`sampleDict`: the packet returned by `ParseRADIUSPacket` holds the User-Name only. -/
theorem unknown_code_counterexample :
    sampleDict.code_to_attributes 9 = none ∧
    ParseRADIUSPacket sampleDict sampleMd5 unknownCodeMsg (asciiBytes "testing123") =
      some (.ok { header := { Code := 1, Identifier := 7, Length := 28,
                              Authenticator := Block16.zero },
                  Attributes := [{ Typ := 1, Length := 0, Value := [98, 111, 98] }] }) := by
  decide

/-- C12 (amended). Unknown codes are dropped on decode. For every secret and every input
of at least 20 bytes whose attribute region `parseAttributes` parses into the
attributes `raws`, `ParseRADIUSPacket` returns a packet and a nil error, and the
packet's attributes are, in order, one attribute for each member of `raws` whose name
`code_to_attributes[type]` is a key of the name-to-code dictionary, with the code found
there and the parsed value; an attribute of `raws` whose code has no name in the
code-to-name dictionary contributes nothing when the empty name is not a key. -/
theorem unknown_code_dropped (d : Dictionary) (md5 : List Byte → Block16) (secret : List Byte)
    (c i l1 l0 : Byte) (auth : Block16) (region : List Byte) (raws : List RadiusAttribute)
    (hparse : parseAttributes md5 region auth secret = some raws)
    (hempty : d.attributes_to_code "" = none) :
    ∃ packet, ParseRADIUSPacket d md5 (c :: i :: l1 :: l0 :: (auth.val ++ region)) secret
        = some (.ok packet) ∧
      packet.Attributes = raws.filterMap (resolved d) ∧
      (∀ a ∈ raws, d.code_to_attributes a.Typ = none → resolved d a = none) ∧
      (∀ a ∈ raws, ∀ name, d.code_to_attributes a.Typ = some name →
        ∀ code, d.attributes_to_code name = some code →
          resolved d a = some { Typ := code, Length := 0, Value := a.Value }) := by
  refine ⟨_, by rw [ParseRADIUSPacket_of_header, hparse]; rfl, ?_, ?_, ?_⟩
  · rw [foldl_AddAttribute_filterMap]
    rfl
  · intro a _ hnone
    simp [resolved, Dictionary.nameOf, hnone, hempty]
  · intro a _ name hname code hcode
    simp [resolved, Dictionary.nameOf, hname, hcode]

theorem unknown_code_dropped_witness :
    ∃ packet, ParseRADIUSPacket sampleDict sampleMd5
        (1 :: 7 :: 0 :: 28 :: (Block16.zero.val ++ [1, 5, 98, 111, 98, 9, 3, 5]))
        (asciiBytes "testing123") = some (.ok packet) ∧
      packet.Attributes =
        ([{ Typ := 1, Length := 5, Value := [98, 111, 98] },
          { Typ := 9, Length := 3, Value := [5] }] : List RadiusAttribute).filterMap
            (resolved sampleDict) ∧
      (∀ a ∈ ([{ Typ := 1, Length := 5, Value := [98, 111, 98] },
               { Typ := 9, Length := 3, Value := [5] }] : List RadiusAttribute),
        sampleDict.code_to_attributes a.Typ = none → resolved sampleDict a = none) ∧
      (∀ a ∈ ([{ Typ := 1, Length := 5, Value := [98, 111, 98] },
               { Typ := 9, Length := 3, Value := [5] }] : List RadiusAttribute),
        ∀ name, sampleDict.code_to_attributes a.Typ = some name →
        ∀ code, sampleDict.attributes_to_code name = some code →
          resolved sampleDict a = some { Typ := code, Length := 0, Value := a.Value }) :=
  unknown_code_dropped sampleDict sampleMd5 (asciiBytes "testing123") 1 7 0 28 Block16.zero
    [1, 5, 98, 111, 98, 9, 3, 5]
    [{ Typ := 1, Length := 5, Value := [98, 111, 98] }, { Typ := 9, Length := 3, Value := [5] }]
    (by decide) (by decide)

theorem parseAttributesLoop_no_type_zero (md5 : List Byte → Block16) (auth : Block16)
    (secret : List Byte) :
    ∀ (fuel : Nat) (reader : List Byte) (acc out : List RadiusAttribute),
      (∀ a ∈ acc, a.Typ ≠ 0) →
      parseAttributesLoop md5 auth secret fuel reader acc = some out →
      ∀ a ∈ out, a.Typ ≠ 0 := by
  intro fuel
  induction fuel with
  | zero =>
    intro reader acc out hacc h
    simp only [parseAttributesLoop, Option.some.injEq] at h
    rw [← h]; exact hacc
  | succ f ih =>
    intro reader acc out hacc h
    match reader with
    | [] =>
      simp only [parseAttributesLoop, Option.some.injEq] at h
      rw [← h]; exact hacc
    | [_] =>
      simp only [parseAttributesLoop, Option.some.injEq] at h
      rw [← h]; exact hacc
    | t :: L :: r =>
      by_cases ht : t = 0
      · rw [parseAttributesLoop] at h
        simp only [if_pos ht] at h
        exact ih _ _ _ hacc h
      · by_cases hL : 2 ≤ L.val
        · rw [parseAttributesLoop_step _ _ _ _ _ _ _ _ ht hL] at h
          have hacc' : ∀ v, ∀ a ∈ acc ++ [({ Typ := t, Length := L, Value := v } : RadiusAttribute)],
              a.Typ ≠ 0 := by
            intro v a ha
            rcases List.mem_append.mp ha with h1 | h1
            · exact hacc a h1
            · rw [List.mem_singleton.mp h1]; exact ht
          split at h
          · cases hd : decryptPassword md5 secret (List.take (L.val - 2) r) auth with
            | none => rw [hd] at h; simp at h
            | some v =>
              rw [hd, Option.some_bind] at h
              exact ih _ _ _ (hacc' v) h
          · exact ih _ _ _ (hacc' _) h
        · rw [parseAttributesLoop_short_length _ _ _ _ _ _ _ _ ht (by omega)] at h
          exact absurd h (by simp)

theorem parseAttributes_type_zero_header (md5 : List Byte → Block16) (auth : Block16)
    (secret : List Byte) (L : Byte) (rest : List Byte) :
    parseAttributes md5 (0 :: L :: rest) auth secret = parseAttributes md5 rest auth secret := by
  unfold parseAttributes
  rw [parseAttributesLoop]
  simp only [if_true]
  exact parseAttributesLoop_fuel _ _ _ _ _ _ _ (by simp only [List.length_cons]; omega) (by omega)

/-- C13 (as stated, refuted). The region 0, 4, 1, 2 starts with type byte 0, length
byte 4 and two value bytes: `parseAttributes` returns no attribute of type 0 with the
value 1, 2; it reads the two value bytes as the header of an attribute of type 1 with
length byte 2 and returns that one. -/
theorem type_zero_counterexample :
    parseAttributes sampleMd5 [0, 4, 1, 2] Block16.zero (asciiBytes "testing123")
      = some [{ Typ := 1, Length := 2, Value := [] }] := by
  decide

/-- C13 (amended). A type-zero attribute header is skipped, not returned: no attribute
in the result of `parseAttributes` has type 0; and on a region that starts with type
byte 0 and length byte 2, so without value bytes, `parseAttributes` returns what it
returns on the rest of the region, right after that header. -/
theorem type_zero_skipped (md5 : List Byte → Block16) (auth : Block16) (secret : List Byte) :
    (∀ data attrs, parseAttributes md5 data auth secret = some attrs →
      ∀ a ∈ attrs, a.Typ ≠ 0) ∧
    (∀ rest, parseAttributes md5 (0 :: 2 :: rest) auth secret
      = parseAttributes md5 rest auth secret) := by
  constructor
  · intro data attrs h
    exact parseAttributesLoop_no_type_zero md5 auth secret _ _ _ _ (by simp) h
  · intro rest
    exact parseAttributes_type_zero_header md5 auth secret 2 rest

theorem type_zero_skipped_witness :
    (∀ a ∈ ([{ Typ := 1, Length := 3, Value := [9] }] : List RadiusAttribute), a.Typ ≠ 0) ∧
    parseAttributes sampleMd5 (0 :: 2 :: [1, 3, 9]) Block16.zero (asciiBytes "testing123")
      = parseAttributes sampleMd5 [1, 3, 9] Block16.zero (asciiBytes "testing123") :=
  ⟨(type_zero_skipped sampleMd5 Block16.zero (asciiBytes "testing123")).1
      [0, 2, 1, 3, 9] [{ Typ := 1, Length := 3, Value := [9] }] (by decide),
   (type_zero_skipped sampleMd5 Block16.zero (asciiBytes "testing123")).2 [1, 3, 9]⟩

/-! ## Encode frame and GetAttribute order -/

/-- C14. Encode frame: whenever `EncodePacket` returns, the packet it leaves behind has
the Code, the Identifier, the Authenticator and the whole attribute sequence (types,
stored lengths and values, a User-Password plaintext included) of the packet it was
called on; only the header Length may differ. -/
theorem encode_frame (md5 : List Byte → Block16) (p : RadiusPacket) (secret : List Byte)
    (enc : Encoded) (h : p.EncodePacket md5 secret = some enc) :
    enc.packet.header.Code = p.header.Code ∧
    enc.packet.header.Identifier = p.header.Identifier ∧
    enc.packet.header.Authenticator = p.header.Authenticator ∧
    enc.packet.Attributes = p.Attributes ∧
    enc.packet = { p with header := { p.header with Length := enc.packet.header.Length } } := by
  obtain ⟨ad, had⟩ := EncodePacket_some md5 p secret enc h
  rw [EncodePacket_eq _ _ _ _ had] at h
  simp only [Option.some.injEq] at h
  subst h
  exact ⟨rfl, rfl, rfl, rfl, rfl⟩

theorem encode_frame_witness :
    sampleEncoded.packet.header.Code = samplePacket.header.Code ∧
    sampleEncoded.packet.header.Identifier = samplePacket.header.Identifier ∧
    sampleEncoded.packet.header.Authenticator = samplePacket.header.Authenticator ∧
    sampleEncoded.packet.Attributes = samplePacket.Attributes ∧
    sampleEncoded.packet = { samplePacket with header :=
      { samplePacket.header with Length := sampleEncoded.packet.header.Length } } :=
  encode_frame sampleMd5 samplePacket [1, 2, 3] sampleEncoded (by decide)

theorem getAttributeLoop_plain (code : Byte) (hv : code ≠ VendorSpecific)
    (attrs : List RadiusAttribute) :
    ∀ acc : List (List Byte),
      getAttributeLoop code attrs acc =
        some (acc ++ (attrs.filter (fun a => decide (a.Typ = code))).map (fun a => a.Value)) := by
  induction attrs with
  | nil => intro acc; simp [getAttributeLoop]
  | cons a rest ih =>
    intro acc
    rw [getAttributeLoop]
    by_cases hc : a.Typ = code
    · have hnv : ¬ a.Typ = VendorSpecific := by rw [hc]; exact hv
      rw [if_pos hc, if_neg hnv, ih]
      simp [hc]
    · rw [if_neg hc, ih]
      simp [hc]

/-- C15. `GetAttribute` order and duplicates: for a name the dictionary resolves to a
code other than Vendor-Specific, `GetAttribute` returns exactly the values of the
attributes whose type is that code, one entry per matching attribute and in packet
order; for a name that is not in the dictionary it returns the empty list. -/
theorem getAttribute_order (d : Dictionary) (p : RadiusPacket) (name : String) :
    (∀ code, d.attributes_to_code name = some code → code ≠ VendorSpecific →
      p.GetAttribute d name =
        some ((p.Attributes.filter (fun a => decide (a.Typ = code))).map (fun a => a.Value))) ∧
    (d.attributes_to_code name = none → p.GetAttribute d name = some []) := by
  constructor
  · intro code hcode hv
    rw [RadiusPacket.GetAttribute, hcode]
    show getAttributeLoop code p.Attributes [] = _
    rw [getAttributeLoop_plain code hv, List.nil_append]
  · intro hnone
    rw [RadiusPacket.GetAttribute, hnone]

theorem getAttribute_order_witness :
    repeatedPacket.GetAttribute sampleDict "User-Name" = some [[98], [97]] ∧
    repeatedPacket.GetAttribute sampleDict "NotARealAttribute" = some [] :=
  ⟨(getAttribute_order sampleDict repeatedPacket "User-Name").1 1 (by decide) (by decide),
   (getAttribute_order sampleDict repeatedPacket "NotARealAttribute").2 (by decide)⟩

/-! ## Lengths are derived -/

theorem encodeAttrsLoop_congr (md5 : List Byte → Block16) (secret : List Byte) (auth : Block16)
    (attrs attrs' : List RadiusAttribute)
    (h : List.Forall₂ (fun a b => a.Typ = b.Typ ∧ a.Value = b.Value) attrs attrs') :
    ∀ buf, encodeAttrsLoop md5 secret auth attrs buf = encodeAttrsLoop md5 secret auth attrs' buf := by
  induction h with
  | nil => intro buf; rfl
  | @cons a b l l' hab _ ih =>
    intro buf
    have he : emittedValue md5 secret auth a = emittedValue md5 secret auth b := by
      simp only [emittedValue, hab.1, hab.2]
    rw [encodeAttrsLoop_cons, encodeAttrsLoop_cons, he]
    cases emittedValue md5 secret auth b with
    | none => rfl
    | some v =>
      simp only [Option.some_bind, wireOf, hab.1]
      exact ih _

theorem EncodePacket_data_congr (md5 : List Byte → Block16) (secret : List Byte)
    (p q : RadiusPacket)
    (hcode : p.header.Code = q.header.Code)
    (hid : p.header.Identifier = q.header.Identifier)
    (hauth : p.header.Authenticator = q.header.Authenticator)
    (hattrs : List.Forall₂ (fun a b => a.Typ = b.Typ ∧ a.Value = b.Value)
      p.Attributes q.Attributes) :
    (p.EncodePacket md5 secret).map (fun enc => (enc.data, enc.err)) =
      (q.EncodePacket md5 secret).map (fun enc => (enc.data, enc.err)) := by
  have hloop : p.encodeAttrs md5 secret = q.encodeAttrs md5 secret := by
    unfold RadiusPacket.encodeAttrs
    rw [hauth]
    exact encodeAttrsLoop_congr md5 secret _ _ _ hattrs []
  cases hq : q.encodeAttrs md5 secret with
  | none =>
    rw [hq] at hloop
    simp [RadiusPacket.EncodePacket, hq, hloop]
  | some ad =>
    rw [hq] at hloop
    rw [EncodePacket_eq _ _ _ _ hloop, EncodePacket_eq _ _ _ _ hq]
    simp [hcode, hid, hauth]

/-- C18. Lengths are derived, never trusted: for every secret and every two packets
that agree on Code, Identifier, Authenticator and on the type and value of each
attribute, whatever their stored header Length and stored attribute Lengths,
`EncodePacket` has the same outcome, with identical bytes and error; `RadiusAttribute.Bytes`
does not depend on the attribute's stored Length; and `EncodePacket` called again on the
packet a first call left behind returns the same bytes. -/
theorem lengths_derived (md5 : List Byte → Block16) (secret : List Byte) (p q : RadiusPacket)
    (hcode : p.header.Code = q.header.Code)
    (hid : p.header.Identifier = q.header.Identifier)
    (hauth : p.header.Authenticator = q.header.Authenticator)
    (hattrs : List.Forall₂ (fun a b => a.Typ = b.Typ ∧ a.Value = b.Value)
      p.Attributes q.Attributes) :
    (p.EncodePacket md5 secret).map (fun enc => (enc.data, enc.err)) =
      (q.EncodePacket md5 secret).map (fun enc => (enc.data, enc.err)) ∧
    (∀ (a : RadiusAttribute) (l : Byte), RadiusAttribute.Bytes { a with Length := l } = a.Bytes) ∧
    (∀ enc, p.EncodePacket md5 secret = some enc →
      ∃ enc', enc.packet.EncodePacket md5 secret = some enc' ∧ enc'.data = enc.data) := by
  refine ⟨EncodePacket_data_congr md5 secret p q hcode hid hauth hattrs, ?_, ?_⟩
  · intro a l
    rw [Bytes_eq, Bytes_eq]
  · intro enc henc
    obtain ⟨ad, had⟩ := EncodePacket_some md5 p secret enc henc
    have hform := EncodePacket_eq _ _ _ _ had
    rw [henc, Option.some.injEq] at hform
    have hsame := EncodePacket_data_congr md5 secret enc.packet p
      (by rw [hform]) (by rw [hform]) (by rw [hform])
      (by rw [hform]; exact List.forall₂_same.mpr (fun _ _ => ⟨rfl, rfl⟩))
    rw [henc] at hsame
    cases h2 : enc.packet.EncodePacket md5 secret with
    | none => rw [h2] at hsame; simp at hsame
    | some enc' =>
      rw [h2] at hsame
      simp only [Option.map_some', Option.some.injEq, Prod.mk.injEq] at hsame
      exact ⟨enc', rfl, hsame.1⟩

theorem lengths_derived_witness :
    (samplePacket.EncodePacket sampleMd5 [1, 2, 3]).map (fun enc => (enc.data, enc.err)) =
      (staleLengthPacket.EncodePacket sampleMd5 [1, 2, 3]).map (fun enc => (enc.data, enc.err)) ∧
    (∀ (a : RadiusAttribute) (l : Byte), RadiusAttribute.Bytes { a with Length := l } = a.Bytes) ∧
    (∀ enc, samplePacket.EncodePacket sampleMd5 [1, 2, 3] = some enc →
      ∃ enc', enc.packet.EncodePacket sampleMd5 [1, 2, 3] = some enc' ∧ enc'.data = enc.data) :=
  lengths_derived sampleMd5 [1, 2, 3] samplePacket staleLengthPacket (by decide) (by decide)
    (by decide) (by simp [samplePacket, staleLengthPacket])

/-! ## Cipher rules -/

theorem indexZero_first (buf : List Byte) :
    ∀ k : Nat, buf[k]? = some 0 → (∀ j, j < k → buf[j]? ≠ some 0) → indexZero buf = k := by
  induction buf with
  | nil => intro k h _; simp at h
  | cons b rest ih =>
    intro k hk hfirst
    cases k with
    | zero =>
      simp only [List.getElem?_cons_zero, Option.some.injEq] at hk
      simp [indexZero, hk]
    | succ k' =>
      have hb : b ≠ 0 := by
        intro hb0
        exact hfirst 0 (by omega) (by simp [hb0])
      have hrest := ih k' (by simpa using hk)
        (fun j hj => by simpa using hfirst (j + 1) (by omega))
      show (if b = 0 then (0 : Int) else
        if indexZero rest < 0 then -1 else indexZero rest + 1) = _
      rw [if_neg hb, hrest, if_neg (by omega)]
      simp

theorem xorBuffer_getElem?_lt (f : Nat → Byte → Byte) (value : List Byte) (tail : List Byte)
    (i : Nat) (hi : i < value.length) :
    (List.zipWith f (List.range' 0 value.length) value ++ tail)[i]?
      = some (f i (value.getD i 0)) := by
  have hl : i < (List.zipWith f (List.range' 0 value.length) value).length := by simpa using hi
  rw [List.getElem?_append_left hl, List.getElem?_eq_getElem hl]
  simp [List.getElem?_eq_getElem hi]

theorem xorBuffer_getElem?_ge (f : Nat → Byte → Byte) (value : List Byte) (n : Nat)
    (i : Nat) (hi : value.length ≤ i) (hn : i < value.length + n) :
    (List.zipWith f (List.range' 0 value.length) value ++ List.replicate n (0 : Byte))[i]?
      = some 0 := by
  have hlen : (List.zipWith f (List.range' 0 value.length) value).length = value.length := by
    simp
  rw [List.getElem?_append_right (by rw [hlen]; exact hi), hlen,
    List.getElem?_eq_getElem (by simp; omega)]
  simp

/-- C16. De-obfuscation and padding rule: for every secret, 16-byte authenticator and
cipher input of at most 16 bytes, `decryptPassword` returns a value computed from a
16-byte buffer `buf` with `buf[i] = MD5(secret || authenticator)[i] XOR cipher[i]` for
each input byte and zero in the remaining bytes: the prefix of `buf` before its first
zero byte when that byte is at an index above 0, and all 16 bytes of `buf` when `buf`
has no zero byte or its first zero byte is at index 0. -/
theorem deobfuscation_rule (md5 : List Byte → Block16) (secret value : List Byte)
    (auth : Block16) (h : value.length ≤ 16) :
    ∃ buf out : List Byte, buf.length = 16 ∧
      (∀ i, i < value.length →
        buf[i]? = some ((md5 (secret ++ auth.val)).val.getD i 0 ^^^ value.getD i 0)) ∧
      (∀ i, value.length ≤ i → i < 16 → buf[i]? = some 0) ∧
      decryptPassword md5 secret value auth = some out ∧
      (∀ k, 0 < k → buf[k]? = some 0 → (∀ j, j < k → buf[j]? ≠ some 0) → out = buf.take k) ∧
      ((∀ x ∈ buf, x ≠ 0) → out = buf) ∧
      (buf[0]? = some 0 → out = buf) := by
  refine ⟨List.zipWith (fun i p => (md5 (secret ++ auth.val)).val.getD i 0 ^^^ p)
      (List.range' 0 value.length) value ++ List.replicate (16 - value.length) 0, _,
    ?_, ?_, ?_, decryptPassword_eq md5 secret value auth h, ?_, ?_, ?_⟩
  · simp; omega
  · intro i hi
    exact xorBuffer_getElem?_lt _ value _ i hi
  · intro i hlo hhi
    exact xorBuffer_getElem?_ge _ value _ i hlo (by omega)
  · intro k hk hzero hfirst
    have hi := indexZero_first _ k hzero hfirst
    have hpos : indexZero (List.zipWith (fun i p => (md5 (secret ++ auth.val)).val.getD i 0 ^^^ p)
        (List.range' 0 value.length) value ++ List.replicate (16 - value.length) 0) > 0 := by
      rw [hi]; exact_mod_cast hk
    rw [cutAtZero, if_pos hpos, hi]
    rfl
  · intro hnz
    rw [cutAtZero, indexZero_of_no_zero _ hnz]
    simp
  · intro h0
    have hi := indexZero_first _ 0 h0 (fun j hj => by omega)
    rw [cutAtZero, hi]
    simp

theorem deobfuscation_rule_witness :
    ∃ buf out : List Byte, buf.length = 16 ∧
      (∀ i, i < ([13, 14, 100] : List Byte).length →
        buf[i]? = some ((sampleMd5 ([1, 2, 3] ++ Block16.zero.val)).val.getD i 0
          ^^^ ([13, 14, 100] : List Byte).getD i 0)) ∧
      (∀ i, ([13, 14, 100] : List Byte).length ≤ i → i < 16 → buf[i]? = some 0) ∧
      decryptPassword sampleMd5 [1, 2, 3] [13, 14, 100] Block16.zero = some out ∧
      (∀ k, 0 < k → buf[k]? = some 0 → (∀ j, j < k → buf[j]? ≠ some 0) → out = buf.take k) ∧
      ((∀ x ∈ buf, x ≠ 0) → out = buf) ∧
      (buf[0]? = some 0 → out = buf) :=
  deobfuscation_rule sampleMd5 [1, 2, 3] [13, 14, 100] Block16.zero (by decide)

/-- C17. Obfuscation definition: for every secret, 16-byte authenticator and password of
at most 16 bytes, `encryptPassword` returns exactly 16 bytes `out` with
`out[i] = padded[i] XOR MD5(secret || authenticator)[i]` for i in 0..15, `padded` being
the password followed by zero bytes up to length 16; the block is thereby determined by
the secret, the authenticator and the password alone. -/
theorem obfuscation_rule (md5 : List Byte → Block16) (secret password : List Byte)
    (auth : Block16) (h : password.length ≤ 16) :
    ∃ out : Block16, encryptPassword md5 secret auth password = some out ∧
      out.val.length = 16 ∧
      (password ++ List.replicate (16 - password.length) (0 : Byte)).length = 16 ∧
      ∀ i, i < 16 →
        out.val[i]? = some ((password ++ List.replicate (16 - password.length) 0).getD i 0
          ^^^ (md5 (secret ++ auth.val)).val.getD i 0) := by
  have he := encryptPassword_eq md5 secret password auth h
  cases hc : encryptPassword md5 secret auth password with
  | none => rw [hc] at he; simp at he
  | some out =>
    rw [hc] at he
    simp only [Option.map_some', Option.some.injEq] at he
    refine ⟨out, rfl, out.property, by simp; omega, ?_⟩
    intro i hi
    rw [he]
    simp [xorBlock, hi]

theorem obfuscation_rule_witness :
    ∃ out : Block16,
      encryptPassword sampleMd5 (asciiBytes "testing123") Block16.zero (asciiBytes "password")
        = some out ∧
      out.val.length = 16 ∧
      (asciiBytes "password" ++
        List.replicate (16 - (asciiBytes "password").length) (0 : Byte)).length = 16 ∧
      ∀ i, i < 16 →
        out.val[i]? = some ((asciiBytes "password" ++
            List.replicate (16 - (asciiBytes "password").length) 0).getD i 0
          ^^^ (sampleMd5 (asciiBytes "testing123" ++ Block16.zero.val)).val.getD i 0) :=
  obfuscation_rule sampleMd5 (asciiBytes "testing123") (asciiBytes "password") Block16.zero
    (by decide)

/-! ## Header length on decode, exact round trip -/

theorem ParseRADIUSPacket_resolved (d : Dictionary) (md5 : List Byte → Block16)
    (c i l1 l0 : Byte) (auth : Block16) (region secret : List Byte) :
    ParseRADIUSPacket d md5 (c :: i :: l1 :: l0 :: (auth.val ++ region)) secret =
      (parseAttributes md5 region auth secret).map (fun raws =>
        .ok { header := { Code := c, Identifier := i, Length := uint16 (l1.val * 256 + l0.val),
                          Authenticator := auth },
              Attributes := raws.filterMap (resolved d) }) := by
  rw [ParseRADIUSPacket_of_header]
  cases parseAttributes md5 region auth secret with
  | none => rfl
  | some raws =>
    simp only [Option.map_some', foldl_AddAttribute_filterMap, List.nil_append]

theorem uint16_of_bytes (l1 l0 : Byte) : (uint16 (l1.val * 256 + l0.val)).val = l1.val * 256 + l0.val := by
  have h1 := l1.isLt
  have h0 := l0.isLt
  simp only [uint16]
  omega

/-- C19. The declared header length is not validated on decode. Two inputs of at least
20 bytes that differ only in bytes 2..3 get the same outcome from `ParseRADIUSPacket`:
both abort or both return a packet, never an error; the returned packets have the same
Code, Identifier, Authenticator and attribute sequence and differ only in the header
Length, which is the big-endian value of bytes 2..3 of the input read; and the
attributes are those parsed from everything from byte 20 onward. -/
theorem header_length_ignored (d : Dictionary) (md5 : List Byte → Block16) (secret : List Byte)
    (c i l1 l0 m1 m0 : Byte) (auth : Block16) (region : List Byte) :
    (ParseRADIUSPacket d md5 (c :: i :: l1 :: l0 :: (auth.val ++ region)) secret = none ↔
      ParseRADIUSPacket d md5 (c :: i :: m1 :: m0 :: (auth.val ++ region)) secret = none) ∧
    (∀ e, ParseRADIUSPacket d md5 (c :: i :: l1 :: l0 :: (auth.val ++ region)) secret
      ≠ some (.error e)) ∧
    (∀ p, ParseRADIUSPacket d md5 (c :: i :: l1 :: l0 :: (auth.val ++ region)) secret
        = some (.ok p) →
      p.header.Code = c ∧ p.header.Identifier = i ∧ p.header.Authenticator = auth ∧
      p.header.Length.val = l1.val * 256 + l0.val ∧
      (∃ raws, parseAttributes md5
          ((c :: i :: l1 :: l0 :: (auth.val ++ region)).drop 20) auth secret = some raws ∧
        p.Attributes = raws.filterMap (resolved d)) ∧
      ∃ q, ParseRADIUSPacket d md5 (c :: i :: m1 :: m0 :: (auth.val ++ region)) secret
          = some (.ok q) ∧
        q.header.Length.val = m1.val * 256 + m0.val ∧
        q = { p with header := { p.header with Length := q.header.Length } }) := by
  have hdrop : (c :: i :: l1 :: l0 :: (auth.val ++ region)).drop 20 = region := by
    have : 20 = 4 + auth.val.length := by rw [auth.property]
    rw [this]
    simp
  rw [ParseRADIUSPacket_resolved, ParseRADIUSPacket_resolved, hdrop]
  cases parseAttributes md5 region auth secret with
  | none => simp
  | some raws =>
    refine ⟨by simp, by simp, ?_⟩
    intro p hp
    simp only [Option.map_some', Option.some.injEq, Except.ok.injEq] at hp
    subst hp
    exact ⟨rfl, rfl, rfl, uint16_of_bytes l1 l0, ⟨raws, rfl, rfl⟩, _, rfl,
      uint16_of_bytes m1 m0, rfl⟩

theorem header_length_ignored_witness :
    ∀ p, ParseRADIUSPacket sampleDict sampleMd5
        (1 :: 7 :: 0 :: 28 :: (Block16.zero.val ++ [1, 5, 98, 111, 98, 9, 3, 5]))
        (asciiBytes "testing123") = some (.ok p) →
      p.header.Code = 1 ∧ p.header.Identifier = 7 ∧ p.header.Authenticator = Block16.zero ∧
      p.header.Length.val = (0 : Byte).val * 256 + (28 : Byte).val ∧
      (∃ raws, parseAttributes sampleMd5
          ((1 :: 7 :: 0 :: 28 :: (Block16.zero.val ++ [1, 5, 98, 111, 98, 9, 3, 5])).drop 20)
          Block16.zero (asciiBytes "testing123") = some raws ∧
        p.Attributes = raws.filterMap (resolved sampleDict)) ∧
      ∃ q, ParseRADIUSPacket sampleDict sampleMd5
          (1 :: 7 :: 255 :: 255 :: (Block16.zero.val ++ [1, 5, 98, 111, 98, 9, 3, 5]))
          (asciiBytes "testing123") = some (.ok q) ∧
        q.header.Length.val = (255 : Byte).val * 256 + (255 : Byte).val ∧
        q = { p with header := { p.header with Length := q.header.Length } } :=
  (header_length_ignored sampleDict sampleMd5 (asciiBytes "testing123") 1 7 0 28 255 255
    Block16.zero [1, 5, 98, 111, 98, 9, 3, 5]).2.2

theorem reproducedValue_exact (a : RadiusAttribute)
    (hpw : a.Typ = UserPassword →
      1 ≤ a.Value.length ∧ a.Value.length ≤ 16 ∧ ∀ x ∈ a.Value, x ≠ 0) :
    reproducedValue a = a.Value := by
  unfold reproducedValue
  by_cases hp : a.Typ = UserPassword
  · obtain ⟨h1, h16, hz⟩ := hpw hp
    rw [if_pos hp, cutAtZero_padded _ h1 h16 hz]
  · rw [if_neg hp]

/-- C20. Round trip under dictionary consistency: for every secret and every packet in
which each attribute has a non-zero type code that the code-to-name dictionary maps to a
name which the name-to-code dictionary maps back to that code, each value has at most
253 bytes, and each User-Password value has 1 to 16 bytes and no zero byte,
`ParseRADIUSPacket(EncodePacket(p, s), s)` returns no error and a packet with the same
Code, Identifier and Authenticator and exactly the same sequence of (type, value) pairs,
User-Password values included. -/
theorem round_trip_exact (d : Dictionary) (md5 : List Byte → Block16) (secret : List Byte)
    (p : RadiusPacket)
    (htyp : ∀ a ∈ p.Attributes, a.Typ ≠ 0 ∧
      ∃ name, d.code_to_attributes a.Typ = some name ∧ d.attributes_to_code name = some a.Typ)
    (hlen : ∀ a ∈ p.Attributes, a.Value.length ≤ 253)
    (hpw : ∀ a ∈ p.Attributes, a.Typ = UserPassword →
      1 ≤ a.Value.length ∧ a.Value.length ≤ 16 ∧ ∀ x ∈ a.Value, x ≠ 0) :
    ∃ enc q, p.EncodePacket md5 secret = some enc ∧ enc.err = none ∧
      ParseRADIUSPacket d md5 enc.data secret = some (.ok q) ∧
      q.header.Code = p.header.Code ∧ q.header.Identifier = p.header.Identifier ∧
      q.header.Authenticator = p.header.Authenticator ∧
      q.Attributes.map (fun a => (a.Typ, a.Value)) =
        p.Attributes.map (fun a => (a.Typ, a.Value)) := by
  have htyp' : ∀ a ∈ p.Attributes,
      a.Typ ≠ 0 ∧ d.attributes_to_code (d.nameOf a.Typ) = some a.Typ := by
    intro a ha
    obtain ⟨h0, name, hname, hback⟩ := htyp a ha
    exact ⟨h0, by simp [Dictionary.nameOf, hname, hback]⟩
  obtain ⟨enc, henc, hcode, hid, hauth, hparse⟩ := parse_encode d md5 secret p hlen htyp'
    (fun a ha hp => (hpw a ha hp).2.1)
  have herr : enc.err = none := by
    obtain ⟨ad, had⟩ := EncodePacket_some md5 p secret enc henc
    rw [EncodePacket_eq _ _ _ _ had, Option.some.injEq] at henc
    rw [← henc]
  refine ⟨enc, _, henc, herr, hparse, hcode, hid, hauth, ?_⟩
  rw [List.map_map]
  apply List.map_congr_left
  intro a ha
  simp only [Function.comp, reproducedValue_exact a (hpw a ha)]

theorem round_trip_exact_witness :
    ∃ enc q, loginPacket.EncodePacket sampleMd5 (asciiBytes "testing123") = some enc ∧
      enc.err = none ∧
      ParseRADIUSPacket sampleDict sampleMd5 enc.data (asciiBytes "testing123") = some (.ok q) ∧
      q.header.Code = loginPacket.header.Code ∧
      q.header.Identifier = loginPacket.header.Identifier ∧
      q.header.Authenticator = loginPacket.header.Authenticator ∧
      q.Attributes.map (fun a => (a.Typ, a.Value)) =
        loginPacket.Attributes.map (fun a => (a.Typ, a.Value)) :=
  round_trip_exact sampleDict sampleMd5 (asciiBytes "testing123") loginPacket
    (by simp [loginPacket, sampleDict]) (by decide) (by decide)

end Goradius
